import Mathlib

/-!
Verification development for the Olympic-dashboard repository
(streamlit pages over pandas DataFrames).

A pandas DataFrame is shallowly embedded as a Table: an ordered list of
column names together with positional rows (each row a list of cell
values).  Cell values are integers, strings, or null (NaN).  The pandas
operations actually used by the repository (rename, column assignment,
left merge, drop_duplicates, fillna, dropna, isin row filtering, groupby
sum, sort_values, head) are embedded below with the semantics pandas
gives them on this fragment: merge keys compare structurally and NaN
keys match each other (pandas merge factorizes both sides' NaN labels
to one shared code, unlike groupby and isin), groupby drops NaN keys
and sorts group keys ascending, column sums treat NaN as 0.
-/

inductive Value where
  | int (n : Int)
  | str (s : String)
  | null
deriving DecidableEq

structure Table where
  cols : List String
  rows : List (List Value)
deriving DecidableEq

/-- Numeric view of a cell: pandas sums skip NaN, so null counts as 0. -/
def Value.toInt : Value → Int
  | .int n => n
  | _ => 0

/-- True for every value except null (pandas notna). -/
def Value.nonNull : Value → Bool
  | .null => false
  | _ => true

/-- Index of the first column with the given name, if any. -/
def idxOf? (c : String) : List String → Option Nat
  | [] => none
  | a :: l => if a = c then some 0 else (idxOf? c l).map (· + 1)

/-- Value of column c in row r (positional lookup through the column list);
null when the column is absent or the row is too short. -/
def cellVal (cols : List String) (r : List Value) (c : String) : Value :=
  match idxOf? c cols with
  | some i => r.getD i Value.null
  | none => Value.null

/-- Membership test on value lists. -/
def memVal (v : Value) : List Value → Bool
  | [] => false
  | w :: ws => decide (w = v) || memVal v ws

/-- Merge-key comparison: pandas merge compares keys structurally, and
NaN keys match each other (their factorize labels are remapped to one
shared code), unlike groupby which drops NaN keys and isin which never
matches NaN. -/
def valMatch (v w : Value) : Bool := decide (v = w)

/-- Order on characters by code point. -/
def charLt (a b : Char) : Bool := decide (a.val < b.val)

/-- Lexicographic order on strings as character lists (pandas sorted()). -/
def strLeAux : List Char → List Char → Bool
  | [], _ => true
  | _ :: _, [] => false
  | a :: as, b :: bs => if a = b then strLeAux as bs else charLt a b

def strLe (a b : String) : Bool := strLeAux a.data b.data

/-- Total order on cell values used when sorting group keys. -/
def valLe : Value → Value → Bool
  | .null, _ => true
  | _, .null => false
  | .int m, .int n => decide (m ≤ n)
  | .int _, .str _ => true
  | .str _, .int _ => false
  | .str a, .str b => strLe a b

def insertVal (v : Value) : List Value → List Value
  | [] => [v]
  | w :: ws => if valLe v w then v :: w :: ws else w :: insertVal v ws

/-- Insertion sort of values (ascending), matching sorted group keys. -/
def sortVals : List Value → List Value
  | [] => []
  | v :: vs => insertVal v (sortVals vs)

/-- First-occurrence de-duplication of a value list (pandas unique). -/
def dedupValsAux (seen : List Value) : List Value → List Value
  | [] => []
  | v :: vs =>
    if memVal v seen then dedupValsAux seen vs
    else v :: dedupValsAux (v :: seen) vs

def dedupVals (l : List Value) : List Value := dedupValsAux [] l

/-- Rename every column named old to new (pandas df.rename(columns)). -/
def Table.rename (t : Table) (old new : String) : Table :=
  ⟨t.cols.map (fun x => if x = old then new else x), t.rows⟩

/-- Column projection, df[[c1, ..., cn]]. -/
def Table.select (t : Table) (cs : List String) : Table :=
  ⟨cs, t.rows.map (fun r => cs.map (fun c => cellVal t.cols r c))⟩

/-- Assignment df[c] = f(row): overwrite the column in place when it
exists, otherwise append it on the right. -/
def assignComputedCol (t : Table) (c : String) (f : List Value → Value) : Table :=
  match idxOf? c t.cols with
  | some i => ⟨t.cols, t.rows.map (fun r => r.set i (f r))⟩
  | none => ⟨t.cols ++ [c], t.rows.map (fun r => r ++ [f r])⟩

/-- Broadcast assignment df[c] = 0. -/
def setColZero (t : Table) (c : String) : Table :=
  assignComputedCol t c (fun _ => Value.int 0)

/-- Broadcast assignment df[c] = constant value. -/
def setColConst (t : Table) (c : String) (v : Value) : Table :=
  assignComputedCol t c (fun _ => v)

/-- Column-wise fillna: replace null cells of column c by v. -/
def fillnaCol (t : Table) (c : String) (v : Value) : Table :=
  match idxOf? c t.cols with
  | some i => ⟨t.cols, t.rows.map (fun r => if r.getD i Value.null = Value.null then r.set i v else r)⟩
  | none => t

/-- Concatenation of per-row expansions (the shape of a fanning-out merge). -/
def catMapRows (f : List Value → List (List Value)) : List (List Value) → List (List Value)
  | [] => []
  | r :: rs => f r ++ catMapRows f rs

/-- Left merge on a key column (pandas merge how=left): every left row is
kept; it is replicated once per matching right row, and padded with nulls
when no right row matches.  NaN keys match each other, as pandas merge
does. -/
def leftMergeOn (l r : Table) (key : String) : Table :=
  ⟨l.cols ++ r.cols.filter (fun c => decide (c ≠ key)),
   catMapRows
     (fun lr =>
       match r.rows.filter (fun rr => valMatch (cellVal l.cols lr key) (cellVal r.cols rr key)) with
       | [] => [lr ++ (r.cols.filter (fun c => decide (c ≠ key))).map (fun _ => Value.null)]
       | ms => ms.map (fun rr => lr ++ (r.cols.filter (fun c => decide (c ≠ key))).map
           (fun c => cellVal r.cols rr c)))
     l.rows⟩

/-- drop_duplicates(key): keep the first row for each key value. -/
def dedupByKeyAux (cols : List String) (key : String) (seen : List Value) :
    List (List Value) → List (List Value)
  | [] => []
  | r :: rs =>
    let kv := cellVal cols r key
    if memVal kv seen then dedupByKeyAux cols key seen rs
    else r :: dedupByKeyAux cols key (kv :: seen) rs

def dedupByKey (t : Table) (key : String) : Table :=
  ⟨t.cols, dedupByKeyAux t.cols key [] t.rows⟩

/-- dropna(subset=[c]): keep the rows whose cell at c is not null. -/
def dropnaSubset (t : Table) (c : String) : Table :=
  ⟨t.cols, t.rows.filter (fun r => Value.nonNull (cellVal t.cols r c))⟩

/-- Non-null values of the key column, in row order. -/
def keyValsOf (t : Table) (key : String) : List Value :=
  (t.rows.map (fun r => cellVal t.cols r key)).filter Value.nonNull

/-- Group keys of a groupby: distinct non-null key values, sorted
ascending (pandas groupby drops NaN keys and sorts keys). -/
def aggKeys (t : Table) (key : String) : List Value :=
  sortVals (dedupVals (keyValsOf t key))

def groupRows (t : Table) (key : String) (k : Value) : List (List Value) :=
  t.rows.filter (fun r => decide (cellVal t.cols r key = k))

/-- Sum of column c over the rows of group k (NaN summed as 0). -/
def groupColSum (t : Table) (key : String) (k : Value) (c : String) : Int :=
  ((groupRows t key k).map (fun r => Value.toInt (cellVal t.cols r c))).sum

/-- groupby(key, as_index=False)[cs].sum(). -/
def groupbySum (t : Table) (key : String) (cs : List String) : Table :=
  ⟨key :: cs,
   (aggKeys t key).map (fun k => k :: cs.map (fun c => Value.int (groupColSum t key k c)))⟩

/-- Row-wise sum of the listed columns of one row. -/
def sumCols (cols : List String) (r : List Value) (cs : List String) : Int :=
  (cs.map (fun c => Value.toInt (cellVal cols r c))).sum

/-- Sum of one column over all rows (pandas Series.sum, NaN as 0). -/
def colSum (t : Table) (c : String) : Int :=
  (t.rows.map (fun r => Value.toInt (cellVal t.cols r c))).sum

/-- Stable insertion of a row into a list sorted descending by column c. -/
def insertRowDesc (cols : List String) (c : String) (r : List Value) :
    List (List Value) → List (List Value)
  | [] => [r]
  | x :: xs =>
    if Value.toInt (cellVal cols r c) ≥ Value.toInt (cellVal cols x c)
    then r :: x :: xs
    else x :: insertRowDesc cols c r xs

def sortRowsDescAux (cols : List String) (c : String) : List (List Value) → List (List Value)
  | [] => []
  | r :: rs => insertRowDesc cols c r (sortRowsDescAux cols c rs)

/-- sort_values(c, ascending=False), stable on ties. -/
def sortRowsDesc (t : Table) (c : String) : Table :=
  ⟨t.cols, sortRowsDescAux t.cols c t.rows⟩

/-- head(n). -/
def Table.head (t : Table) (n : Nat) : Table :=
  ⟨t.cols, t.rows.take n⟩

/-- First row whose key cell equals k, read at column c (null when the
key does not occur).  Used to state per-country facts about tables. -/
def lookupCell (t : Table) (key : String) (k : Value) (c : String) : Value :=
  match t.rows.find? (fun r => decide (cellVal t.cols r key = k)) with
  | some r => cellVal t.cols r c
  | none => Value.null

/-- Wellformedness: every row has exactly one cell per column. -/
abbrev Table.WF (t : Table) : Prop := ∀ r ∈ t.rows, r.length = t.cols.length

/-!
Column resolver and schema normalizers, embedded from the source.
-/

/-- ASCII lowercasing of one character (Python str.lower on the ASCII
column names appearing in these datasets). -/
def lowerChar (c : Char) : Char :=
  if 65 ≤ c.toNat && c.toNat ≤ 90 then Char.ofNat (c.toNat + 32) else c

/-- ASCII lowercasing of a string. -/
def lowerStr (s : String) : String := ⟨s.data.map lowerChar⟩

/-- Prefix test on character lists. -/
def hasPrefixChars : List Char → List Char → Bool
  | [], _ => true
  | _ :: _, [] => false
  | a :: as, b :: bs => decide (a = b) && hasPrefixChars as bs

/-- Substring test (Python in operator): needle occurs inside hay. -/
def containsSub (needle : List Char) : List Char → Bool
  | [] => needle.isEmpty
  | b :: bs => hasPrefixChars needle (b :: bs) || containsSub needle bs

/-- Match test of get_medal_column for one column name: the lowercased
column name equals the lowercased role name or contains it. -/
def medalColMatches (medal_name col : String) : Bool :=
  let m := lowerStr medal_name
  let cl := lowerStr col
  cl == m || containsSub m.data cl.data

/-- Embeds get_medal_column of src/utils.py lines 237-247 (duplicated in
src/app.py and src/pages/Global_Analysis.py): first column, in column
order, whose lowercased name equals or contains the lowercased role
name. -/
def get_medal_column (t : Table) (medal_name : String) : Option String :=
  t.cols.find? (fun col => medalColMatches medal_name col)

/-- Embeds get_total_column of src/pages/Global_Analysis.py lines 50-55:
first column whose lowercased name equals or contains total. -/
def get_total_column (t : Table) : Option String :=
  t.cols.find? (fun col => medalColMatches "total" col)

/-- Last column whose lowercased name equals k: the Python dict
comprehension mapping c.lower() to c keeps the last assignment. -/
def lastLower? (cols : List String) (k : String) : Option String :=
  (cols.filter (fun c => lowerStr c == k)).getLast?

/-- Embeds normalize_noc_column of src/pages/Global_Analysis.py lines
57-65: rename the column whose lowercased name is noc (else
country_code, else code) to noc. -/
def normalize_noc_column (t : Table) : Table :=
  match lastLower? t.cols "noc" with
  | some c => t.rename c "noc"
  | none =>
    match lastLower? t.cols "country_code" with
    | some c => t.rename c "noc"
    | none =>
      match lastLower? t.cols "code" with
      | some c => t.rename c "noc"
      | none => t

/-- Embeds the medals_total column standardization of src/utils.py lines
269-273 (noc, else country_code, renamed to noc). -/
def standardizeMedalsNoc (t : Table) : Table :=
  match lastLower? t.cols "noc" with
  | some c => t.rename c "noc"
  | none =>
    match lastLower? t.cols "country_code" with
    | some c => t.rename c "noc"
    | none => t

/-- Embeds the nocs column standardization of src/utils.py lines 275-279
(noc, else code, renamed to noc). -/
def standardizeNocsNoc (t : Table) : Table :=
  match lastLower? t.cols "noc" with
  | some c => t.rename c "noc"
  | none =>
    match lastLower? t.cols "code" with
    | some c => t.rename c "noc"
    | none => t

def medalNames : List String := ["gold", "silver", "bronze"]

/-- Columns whose lowercased name is gold, silver or bronze (src/utils.py
line 281). -/
def medalColsOf (t : Table) : List String :=
  t.cols.filter (fun c => medalNames.contains (lowerStr c))

/-- Embeds src/utils.py lines 281-283: when no total column exists and
some medal column does, derive total as the row-wise sum of the medal
columns. -/
def addTotalColumn (t : Table) : Table :=
  if !(t.cols.contains "total") && !(medalColsOf t).isEmpty then
    assignComputedCol t "total" (fun r => Value.int (sumCols t.cols r (medalColsOf t)))
  else t

/-- First country-name column of the metadata table (src/utils.py lines
287-290 and src/pages/Global_Analysis.py lines 261-265). -/
def pickCountryCol (nocs : Table) : Option String :=
  (["country", "country_name", "country_long"]).find? (fun c => nocs.cols.contains c)

/-- Embeds the country-name merge of src/utils.py lines 285-297: left
merge of the metadata name column, with NO de-duplication of the
metadata key. -/
def mergeCountryUtils (medals nocs : Table) : Table :=
  if medals.cols.contains "noc" && nocs.cols.contains "noc" then
    match pickCountryCol nocs with
    | some c => (leftMergeOn medals (nocs.select ["noc", c]) "noc").rename c "country"
    | none => medals
  else medals

/-- Embeds the country-name merge of src/pages/Global_Analysis.py lines
260-272: same left merge but the metadata is first de-duplicated on noc
(drop_duplicates keeps the first occurrence). -/
def mergeCountryGA (medals nocs : Table) : Table :=
  if medals.cols.contains "noc" && nocs.cols.contains "noc" then
    match pickCountryCol nocs with
    | some c => (leftMergeOn medals (dedupByKey (nocs.select ["noc", c]) "noc") "noc").rename c "country"
    | none => medals
  else medals

/-- Embeds add_continent_column of src/pages/Global_Analysis.py lines
67-108.  The optional countries argument stands for data/countries.csv
when that file exists and parses. -/
def add_continent_column (medals nocs : Table) (countries : Option Table) : Table :=
  match (["continent", "region"]).find? (fun c => nocs.cols.contains c) with
  | some cand =>
    fillnaCol ((leftMergeOn medals (nocs.select ["noc", cand]) "noc").rename cand "continent")
      "continent" (Value.str "Other")
  | none =>
    match countries with
    | some cs0 =>
      let cs := normalize_noc_column cs0
      if cs.cols.contains "noc" then
        match (["continent", "region"]).find? (fun c => cs.cols.contains c) with
        | some cand =>
          fillnaCol ((leftMergeOn medals (cs.select ["noc", cand]) "noc").rename cand "continent")
            "continent" (Value.str "Other")
        | none => setColConst medals "continent" (Value.str "Other")
      else setColConst medals "continent" (Value.str "Other")
    | none => setColConst medals "continent" (Value.str "Other")

/-- Embeds pd.read_csv on an optional file: a missing file raises
FileNotFoundError, modelled as an error result. -/
def read_csv (file : Option Table) : Except String Table :=
  match file with
  | some t => Except.ok t
  | none => Except.error "FileNotFoundError"

/-- Embeds load_athletes of src/utils/data_loader.py: a bare read with no
exception handling, so a missing file propagates the error. -/
def load_athletes (f : Option Table) : Except String Table := read_csv f

/-- Embeds load_medals_total of src/utils/data_loader.py. -/
def load_medals_total (f : Option Table) : Except String Table := read_csv f

/-- Embeds load_events of src/utils/data_loader.py. -/
def load_events (f : Option Table) : Except String Table := read_csv f

/-- Embeds load_data of src/utils.py lines 253-299.  Each argument is the
content of one CSV file, none when the file is missing; any missing file
makes every read in the try block moot and the except branch returns the
four empty schema-complete tables. -/
def load_data (fa fe fm fn : Option Table) : Table × Table × Table × Table :=
  match fa, fe, fm, fn with
  | some a, some e, some m, some n =>
    let m1 := standardizeMedalsNoc m
    let n1 := standardizeNocsNoc n
    let m2 := addTotalColumn m1
    let m3 := mergeCountryUtils m2 n1
    (a, e, m3, n1)
  | _, _, _, _ =>
    (⟨["id", "sport"], []⟩,
     ⟨["sport", "event_id"], []⟩,
     ⟨["noc", "gold", "silver", "bronze", "total"], []⟩,
     ⟨["noc", "country"], []⟩)

/-!
Filter-and-aggregate pipeline, embedded from the source.
-/

/-- Embeds the country/sport row filters of src/app.py lines 465-478 and
src/pages/Global_Analysis.py lines 320-322: filter by membership when
the selection and the table are both non-empty, otherwise keep the whole
table (empty selection means no filter). -/
def applyOptionFilter (t : Table) (col : String) (sel : List Value) : Table :=
  if !sel.isEmpty && !t.rows.isEmpty then
    ⟨t.cols, t.rows.filter (fun r => memVal (cellVal t.cols r col) sel)⟩
  else t

/-- Embeds the sidebar option list of src/app.py line 435: sorted unique
non-null values of the column. -/
def availableOptions (t : Table) (col : String) : List Value :=
  sortVals (dedupVals (keyValsOf t col))

/-- Embeds the medal-type zeroing of src/pages/Global_Analysis.py lines
431-437: each of the three medal columns is set to 0 when its medal type
is not selected. -/
def zeroUnselectedMedals (t : Table) (sel : List String) (gc sc bc : String) : Table :=
  let t1 := if sel.contains "Gold" then t else setColZero t gc
  let t2 := if sel.contains "Silver" then t1 else setColZero t1 sc
  if sel.contains "Bronze" then t2 else setColZero t2 bc

/-- Embeds the re-aggregation of src/pages/Global_Analysis.py lines
439-443: zero unselected medal types, group by country code summing the
three medal columns, then derive total as their row-wise sum. -/
def reAgg (t : Table) (sel : List String) (gc sc bc key : String) : Table :=
  let z := zeroUnselectedMedals t sel gc sc bc
  let agg := groupbySum z key [gc, sc, bc]
  assignComputedCol agg "total" (fun r => Value.int (sumCols agg.cols r [gc, sc, bc]))

/-- Embeds the full top-N block of src/pages/Global_Analysis.py lines
428-444: re-aggregate, sort descending by total, take the first n
rows. -/
def topNMedals (t : Table) (sel : List String) (gc sc bc key : String) (n : Nat) : Table :=
  (sortRowsDesc (reAgg t sel gc sc bc key) "total").head n

/-- One conditional accumulation step of the stored-total fallback of src/app.py
lines 675-680: add the column value when the column was resolved. -/
def optAdd (cols : List String) (r : List Value) (acc : Value) (copt : Option String) : Value :=
  match copt with
  | some c =>
    match acc, cellVal cols r c with
    | Value.int m, Value.int n => Value.int (m + n)
    | _, _ => Value.null
  | none => acc

/-- Embeds the top-10 ranking of src/app.py lines 670-688: when no total
column exists derive it from the resolved medal columns (NaN cells
poison the sum, as in pandas), drop rows with null total, group by noc
summing total, sort descending, head 10.  The medal-type selection is
not consulted anywhere in this block. -/
def app_top10 (t : Table) : Table :=
  let gc := get_medal_column t "gold"
  let sc := get_medal_column t "silver"
  let bc := get_medal_column t "bronze"
  let t1 :=
    if t.cols.contains "total" then t
    else assignComputedCol t "total"
      (fun r => optAdd t.cols r (optAdd t.cols r (optAdd t.cols r (Value.int 0) gc) sc) bc)
  let t2 := dropnaSubset t1 "total"
  (sortRowsDesc (groupbySum t2 "noc" ["total"]) "total").head 10

/-- Embeds the total-medals KPI of src/app.py lines 488-496: each medal
type contributes its column sum only when its column resolves and the
type is selected. -/
def totalMedalsKPI (t : Table) (sel : List String) : Int :=
  (match get_medal_column t "gold" with
   | some c => if sel.contains "Gold" then colSum t c else 0
   | none => 0) +
  (match get_medal_column t "silver" with
   | some c => if sel.contains "Silver" then colSum t c else 0
   | none => 0) +
  (match get_medal_column t "bronze" with
   | some c => if sel.contains "Bronze" then colSum t c else 0
   | none => 0)

/-!
Concrete tables used by counterexamples and witnesses.
-/

/-- The two-row medal table of the spec scenario. -/
def exampleMedals : Table :=
  ⟨["noc", "Gold", "Silver", "Bronze"],
   [[Value.str "USA", Value.int 10, Value.int 5, Value.int 3],
    [Value.str "CHN", Value.int 8, Value.int 10, Value.int 6]]⟩

/-- The same scenario with its stored total column, as loaded tables
carry it in src/app.py. -/
def exampleMedalsTotal : Table :=
  ⟨["noc", "Gold", "Silver", "Bronze", "total"],
   [[Value.str "USA", Value.int 10, Value.int 5, Value.int 3, Value.int 18],
    [Value.str "CHN", Value.int 8, Value.int 10, Value.int 6, Value.int 24]]⟩

/-- One-country medal table with a row whose country code is missing. -/
def nullNocMedals : Table :=
  ⟨["noc"], [[Value.str "USA"], [Value.null]]⟩

/-- One-row primary table for the join scenarios. -/
def oneUsaMedals : Table :=
  ⟨["noc", "Gold"], [[Value.str "USA", Value.int 1]]⟩

/-- Metadata with a duplicate USA code and two continent spellings. -/
def dupUsaNocsContinent : Table :=
  ⟨["noc", "continent"],
   [[Value.str "USA", Value.str "Europe"], [Value.str "USA", Value.str "America"]]⟩

/-- Metadata with a duplicate USA code and two country-name spellings. -/
def dupUsaNocsCountry : Table :=
  ⟨["noc", "country"],
   [[Value.str "USA", Value.str "United States"], [Value.str "USA", Value.str "United States of America"]]⟩

/-- Value carried over by a left merge: the column c of the first right
row whose key matches kv, null when no row matches. -/
def firstMatchVal (R : Table) (key : String) (kv : Value) (c : String) : Value :=
  match R.rows.find? (fun rr => valMatch kv (cellVal R.cols rr key)) with
  | some rr => cellVal R.cols rr c
  | none => Value.null

/-- Continent assigned to a country code by the enrichment: the first
metadata match (null mapped to Other), Other when there is no match. -/
def continentFor (nocs : Table) (cand : String) (kv : Value) : Value :=
  if firstMatchVal nocs "noc" kv cand = Value.null then Value.str "Other"
  else firstMatchVal nocs "noc" kv cand

/-- Country name assigned to a country code: the first metadata match,
null when there is none. -/
def countryNameFor (nocs : Table) (c : String) (kv : Value) : Value :=
  firstMatchVal nocs "noc" kv c

/-!
Helper lemmas about the table primitives.
-/

theorem idxOf?_lt_length {c : String} :
    ∀ {cols : List String} {i : Nat}, idxOf? c cols = some i → i < cols.length := by
  intro cols
  induction cols with
  | nil => intro i h; simp [idxOf?] at h
  | cons a l ih =>
    intro i h
    simp only [idxOf?] at h
    by_cases ha : a = c
    · simp [ha] at h
      simp only [List.length_cons]
      omega
    · simp only [ha, if_false, Option.map_eq_some'] at h
      obtain ⟨j, hj, rfl⟩ := h
      have := ih hj
      simp only [List.length_cons]
      omega

theorem idxOf?_get {c : String} :
    ∀ {cols : List String} {i : Nat}, idxOf? c cols = some i → cols.getD i "" = c := by
  intro cols
  induction cols with
  | nil => intro i h; simp [idxOf?] at h
  | cons a l ih =>
    intro i h
    simp only [idxOf?] at h
    by_cases ha : a = c
    · simp [ha] at h; subst h; simpa using ha
    · simp only [ha, if_false, Option.map_eq_some'] at h
      obtain ⟨j, hj, rfl⟩ := h
      simpa using ih hj

theorem idxOf?_eq_none_of_not_mem {c : String} :
    ∀ {cols : List String}, c ∉ cols → idxOf? c cols = none := by
  intro cols
  induction cols with
  | nil => intro _; rfl
  | cons a l ih =>
    intro h
    simp only [List.mem_cons, not_or] at h
    simp [idxOf?, Ne.symm h.1, ih h.2]

theorem idxOf?_isSome_of_mem {c : String} :
    ∀ {cols : List String}, c ∈ cols → ∃ i, idxOf? c cols = some i := by
  intro cols
  induction cols with
  | nil => intro h; simp at h
  | cons a l ih =>
    intro h
    by_cases ha : a = c
    · exact ⟨0, by simp [idxOf?, ha]⟩
    · have : c ∈ l := by
        rcases List.mem_cons.mp h with h1 | h1
        · exact absurd h1.symm ha
        · exact h1
      obtain ⟨i, hi⟩ := ih this
      exact ⟨i + 1, by simp [idxOf?, ha, hi]⟩

theorem idxOf?_append_self {c : String} :
    ∀ {cols : List String}, c ∉ cols → idxOf? c (cols ++ [c]) = some cols.length := by
  intro cols
  induction cols with
  | nil => intro _; simp [idxOf?]
  | cons a l ih =>
    intro h
    simp only [List.mem_cons, not_or] at h
    simp [idxOf?, Ne.symm h.1, ih h.2]

theorem getD_append_len {v : Value} {d : Value} :
    ∀ {r : List Value}, (r ++ [v]).getD r.length d = v := by
  intro r
  induction r with
  | nil => rfl
  | cons a l ih => simp only [List.cons_append, List.length_cons, List.getD_cons_succ]; exact ih

theorem getD_append_lt {d : Value} {w : List Value} :
    ∀ {r : List Value} {i : Nat}, i < r.length → (r ++ w).getD i d = r.getD i d := by
  intro r
  induction r with
  | nil => intro i h; simp at h
  | cons a l ih =>
    intro i h
    cases i with
    | zero => rfl
    | succ j => simpa using ih (by simpa using h)

theorem getD_set_self {v d : Value} :
    ∀ {r : List Value} {i : Nat}, i < r.length → (r.set i v).getD i d = v := by
  intro r
  induction r with
  | nil => intro i h; simp at h
  | cons a l ih =>
    intro i h
    cases i with
    | zero => rfl
    | succ j => simpa using ih (by simpa using h)

theorem getD_set_ne {v d : Value} :
    ∀ {r : List Value} {i j : Nat}, i ≠ j → (r.set i v).getD j d = r.getD j d := by
  intro r
  induction r with
  | nil => intro i j _; simp
  | cons a l ih =>
    intro i j hij
    cases i with
    | zero =>
      cases j with
      | zero => exact absurd rfl hij
      | succ _ => rfl
    | succ i' =>
      cases j with
      | zero => rfl
      | succ j' => simpa using ih (by omega)

/-- Reading the freshly appended column returns the appended value. -/
theorem cellVal_append_new {cols : List String} {c : String} {r : List Value} {v : Value}
    (hc : c ∉ cols) (hr : r.length = cols.length) :
    cellVal (cols ++ [c]) (r ++ [v]) c = v := by
  unfold cellVal
  rw [idxOf?_append_self hc, ← hr]
  exact getD_append_len

/-- The first index of a column already present is unchanged by
appending further columns. -/
theorem idxOf?_append_of_some {d : String} {w : List String} :
    ∀ {cols : List String} {i : Nat}, idxOf? d cols = some i → idxOf? d (cols ++ w) = some i := by
  intro cols
  induction cols with
  | nil => intro i h; simp [idxOf?] at h
  | cons a l ih =>
    intro i h
    simp only [idxOf?, List.cons_append] at h ⊢
    by_cases ha : a = d
    · simpa [ha] using h
    · simp only [ha, if_false, Option.map_eq_some'] at h
      obtain ⟨j, hj, rfl⟩ := h
      simp [idxOf?, ha, ih hj]

/-- Reading an old column is unchanged by appending a new column. -/
theorem cellVal_append_old {cols : List String} {c d : String} {r : List Value} {v : Value}
    (hd : d ∈ cols) (hr : r.length = cols.length) :
    cellVal (cols ++ [c]) (r ++ [v]) d = cellVal cols r d := by
  unfold cellVal
  obtain ⟨i, hi⟩ := idxOf?_isSome_of_mem hd
  rw [hi, idxOf?_append_of_some hi]
  exact getD_append_lt (hr ▸ idxOf?_lt_length hi)

/-- Writing through the first index of column c leaves every other
column unchanged. -/
theorem cellVal_set_ne {cols : List String} {c d : String} {r : List Value} {v : Value} {i : Nat}
    (hi : idxOf? c cols = some i) (hcd : d ≠ c) :
    cellVal cols (r.set i v) d = cellVal cols r d := by
  unfold cellVal
  cases hj : idxOf? d cols with
  | none => rfl
  | some j =>
    have hci : cols.getD i "" = c := idxOf?_get hi
    have hdj : cols.getD j "" = d := idxOf?_get hj
    have hij : i ≠ j := by
      intro h
      exact hcd (by rw [← hdj, ← h, hci])
    exact getD_set_ne hij

/-- Overwriting a present column rewrites the rows in place. -/
theorem assignComputedCol_some {t : Table} {c : String} {f : List Value → Value} {i : Nat}
    (hi : idxOf? c t.cols = some i) :
    assignComputedCol t c f = ⟨t.cols, t.rows.map (fun r => r.set i (f r))⟩ := by
  unfold assignComputedCol
  rw [hi]

/-- Assigning an absent column appends it. -/
theorem assignComputedCol_none {t : Table} {c : String} {f : List Value → Value}
    (hc : c ∉ t.cols) :
    assignComputedCol t c f = ⟨t.cols ++ [c], t.rows.map (fun r => r ++ [f r])⟩ := by
  unfold assignComputedCol
  rw [idxOf?_eq_none_of_not_mem hc]

/-- Filtering a mapped list filters the source through the map. -/
theorem filter_map_comm {α β : Type} (f : α → β) (p : β → Bool) :
    ∀ l : List α, (l.map f).filter p = (l.filter (fun x => p (f x))).map f := by
  intro l
  induction l with
  | nil => rfl
  | cons a l ih =>
    simp only [List.map_cons, List.filter_cons]
    cases h : p (f a) <;> simp [h, ih]

/-- Searching a mapped list searches the source through the map. -/
theorem find?_map_comm {α β : Type} (f : α → β) (p : β → Bool) :
    ∀ l : List α, (l.map f).find? p = ((l.find? (fun x => p (f x))).map f) := by
  intro l
  induction l with
  | nil => rfl
  | cons a l ih =>
    simp only [List.map_cons, List.find?_cons]
    cases h : p (f a) <;> simp [h, ih]

theorem memVal_iff {x : Value} : ∀ {l : List Value}, memVal x l = true ↔ x ∈ l := by
  intro l
  induction l with
  | nil => simp [memVal]
  | cons a l ih =>
    simp only [memVal, Bool.or_eq_true, decide_eq_true_eq, List.mem_cons, ih]
    constructor
    · rintro (h | h)
      · exact Or.inl h.symm
      · exact Or.inr h
    · rintro (h | h)
      · exact Or.inl h.symm
      · exact Or.inr h

theorem mem_insertVal {x v : Value} :
    ∀ {l : List Value}, x ∈ insertVal v l ↔ x = v ∨ x ∈ l := by
  intro l
  induction l with
  | nil => simp [insertVal]
  | cons a l ih =>
    unfold insertVal
    by_cases h : valLe v a = true
    · rw [if_pos h]
      simp
    · rw [if_neg h]
      simp only [List.mem_cons, ih]
      tauto

theorem mem_sortVals {x : Value} : ∀ {l : List Value}, x ∈ sortVals l ↔ x ∈ l := by
  intro l
  induction l with
  | nil => simp [sortVals]
  | cons a l ih =>
    unfold sortVals
    rw [mem_insertVal, ih]
    simp

theorem mem_dedupValsAux {x : Value} :
    ∀ {l : List Value} {seen : List Value},
      x ∈ l → memVal x seen = false → x ∈ dedupValsAux seen l := by
  intro l
  induction l with
  | nil => intro seen h _; simp at h
  | cons a l ih =>
    intro seen hx hseen
    unfold dedupValsAux
    rcases List.mem_cons.mp hx with rfl | hx'
    · rw [if_neg (by rw [hseen]; simp)]
      exact List.mem_cons_self _ _
    · by_cases ha : memVal a seen = true
      · rw [if_pos ha]
        exact ih hx' hseen
      · rw [if_neg ha]
        by_cases hxa : x = a
        · exact hxa ▸ List.mem_cons_self _ _
        · refine List.mem_cons_of_mem _ (ih hx' ?_)
          simp only [memVal, Bool.or_eq_false_iff, decide_eq_false_iff_not, Bool.not_eq_true]
          exact ⟨fun h => hxa h.symm, hseen⟩

/-- Every member of the original list survives uniquing and sorting. -/
theorem mem_sort_dedup {x : Value} {l : List Value} (hx : x ∈ l) :
    x ∈ sortVals (dedupVals l) :=
  mem_sortVals.mpr (mem_dedupValsAux hx rfl)

/-- Searching for a key by equality finds the key itself. -/
theorem find?_eq_self {k : Value} :
    ∀ {ks : List Value}, k ∈ ks → ks.find? (fun x => decide (x = k)) = some k := by
  intro ks
  induction ks with
  | nil => intro h; simp at h
  | cons a l ih =>
    intro h
    by_cases ha : a = k
    · simp [List.find?_cons, ha]
    · rcases List.mem_cons.mp h with h1 | h1
      · exact absurd h1.symm ha
      · simp [List.find?_cons, ha, ih h1]

/-- A present column name has a contains-test value true. -/
theorem contains_eq_false_of_not_mem {c : String} {l : List String} (h : c ∉ l) :
    l.contains c = false := by
  induction l with
  | nil => rfl
  | cons a l ih =>
    simp only [List.mem_cons, not_or] at h
    simp only [List.contains_cons, Bool.or_eq_false_iff]
    constructor
    · exact beq_eq_false_iff_ne.mpr h.1
    · exact ih h.2

/-- Row-wise sum over a permuted column list is unchanged. -/
theorem sumCols_perm {cols : List String} {r : List Value} {cs ds : List String}
    (h : cs.Perm ds) : sumCols cols r cs = sumCols cols r ds :=
  List.Perm.sum_eq (h.map _)

/-- Shared shape lemma for the total-column derivation of src/utils.py
lines 281-283: with no total column and a non-empty resolved medal
column list, the normalizer appends a total column holding the row-wise
sum of exactly those columns. -/
theorem addTotalColumn_of_medal_cols
    (t : Table) (cs : List String)
    (hw : t.WF) (ht : "total" ∉ t.cols)
    (hcs : medalColsOf t = cs) (hne : cs ≠ []) :
    (addTotalColumn t).cols = t.cols ++ ["total"] ∧
    (addTotalColumn t).rows = t.rows.map (fun r => r ++ [Value.int (sumCols t.cols r cs)]) ∧
    ∀ r ∈ t.rows,
      cellVal (addTotalColumn t).cols (r ++ [Value.int (sumCols t.cols r cs)]) "total"
        = Value.int (sumCols t.cols r cs) := by
  have hcond : (!t.cols.contains "total" && !(medalColsOf t).isEmpty) = true := by
    rw [contains_eq_false_of_not_mem ht, hcs]
    cases cs with
    | nil => exact absurd rfl hne
    | cons a l => rfl
  have hstep : addTotalColumn t
      = assignComputedCol t "total" (fun r => Value.int (sumCols t.cols r (medalColsOf t))) := by
    unfold addTotalColumn
    rw [if_pos hcond]
  rw [hstep, assignComputedCol_none ht, hcs]
  refine ⟨rfl, rfl, ?_⟩
  intro r hr
  exact cellVal_append_new ht (hw r hr)

/-- C1: for every medal-totals table with no explicit total column whose
medal-count columns are exactly one gold, one silver and one bronze
column (in any order), the normalizer of src/utils.py lines 281-283 adds
a total column whose value in every row is exactly that row's gold plus
silver plus bronze count. -/
theorem derived_total_equals_medal_sum
    (t : Table) (g s b : String)
    (hw : t.WF) (ht : "total" ∉ t.cols)
    (hperm : (medalColsOf t).Perm [g, s, b])
    (hg : lowerStr g = "gold") (hs : lowerStr s = "silver") (hb : lowerStr b = "bronze") :
    (addTotalColumn t).cols = t.cols ++ ["total"] ∧
    (addTotalColumn t).rows = t.rows.map (fun r => r ++
      [Value.int (Value.toInt (cellVal t.cols r g) + Value.toInt (cellVal t.cols r s)
        + Value.toInt (cellVal t.cols r b))]) ∧
    ∀ r ∈ t.rows,
      cellVal (addTotalColumn t).cols
        (r ++ [Value.int (Value.toInt (cellVal t.cols r g) + Value.toInt (cellVal t.cols r s)
          + Value.toInt (cellVal t.cols r b))]) "total"
      = Value.int (Value.toInt (cellVal t.cols r g) + Value.toInt (cellVal t.cols r s)
          + Value.toInt (cellVal t.cols r b)) := by
  have hne : medalColsOf t ≠ [] := by
    intro h
    have := hperm.length_eq
    rw [h] at this
    simp at this
  obtain ⟨h1, h2, h3⟩ := addTotalColumn_of_medal_cols t (medalColsOf t) hw ht rfl hne
  have hsum : ∀ r : List Value,
      sumCols t.cols r (medalColsOf t)
        = Value.toInt (cellVal t.cols r g) + Value.toInt (cellVal t.cols r s)
          + Value.toInt (cellVal t.cols r b) := by
    intro r
    rw [sumCols_perm hperm]
    simp [sumCols]
    ring
  refine ⟨h1, ?_, ?_⟩
  · rw [h2]
    apply List.map_congr_left
    intro r _
    rw [hsum r]
  · intro r hr
    rw [← hsum r]
    exact h3 r hr

/-- Witness for C1 on the two-row example table: the derived totals are
18 for USA and 24 for CHN. -/
theorem derived_total_equals_medal_sum_witness :
    (addTotalColumn exampleMedals).cols = exampleMedals.cols ++ ["total"] ∧
    (addTotalColumn exampleMedals).rows =
      [[Value.str "USA", Value.int 10, Value.int 5, Value.int 3, Value.int 18],
       [Value.str "CHN", Value.int 8, Value.int 10, Value.int 6, Value.int 24]] :=
  ⟨(derived_total_equals_medal_sum exampleMedals "Gold" "Silver" "Bronze"
      (by decide) (by decide) (by decide) (by decide) (by decide) (by decide)).1,
   by decide⟩

/-- C10: the total derivation of src/utils.py lines 281-283 does not
require all three medal columns: any non-empty set of exactly-named
(case-insensitive) medal columns yields a total column equal to the
row-wise sum of just those columns. -/
theorem derived_total_from_present_medal_columns
    (t : Table) (cs : List String)
    (hw : t.WF) (ht : "total" ∉ t.cols)
    (hcs : medalColsOf t = cs) (hne : cs ≠ []) :
    (addTotalColumn t).cols = t.cols ++ ["total"] ∧
    (addTotalColumn t).rows = t.rows.map (fun r => r ++ [Value.int (sumCols t.cols r cs)]) ∧
    ∀ r ∈ t.rows,
      cellVal (addTotalColumn t).cols (r ++ [Value.int (sumCols t.cols r cs)]) "total"
        = Value.int (sumCols t.cols r cs) :=
  addTotalColumn_of_medal_cols t cs hw ht hcs hne

/-- Witness for C10 on a table having only a gold column: the derived
total equals the gold count alone. -/
theorem derived_total_from_present_medal_columns_witness :
    (addTotalColumn ⟨["NOC", "Gold"], [[Value.str "USA", Value.int 7]]⟩).rows =
      [[Value.str "USA", Value.int 7, Value.int 7]] :=
  ((derived_total_from_present_medal_columns ⟨["NOC", "Gold"], [[Value.str "USA", Value.int 7]]⟩
      ["Gold"] (by decide) (by decide) (by decide) (by decide)).2.1).trans (by decide)

/-- Alias predicate of the country-code column normalizer: the lowercased
name is noc, country_code or code. -/
def isNocAlias (x : String) : Bool :=
  lowerStr x == "noc" || lowerStr x == "country_code" || lowerStr x == "code"

/-- A filter by a weaker predicate of a list whose strong filter is a
singleton is that singleton or nothing. -/
theorem filter_sub {p q : String → Bool} {c : String} :
    ∀ {l : List String}, l.filter p = [c] → (∀ x, q x = true → p x = true) →
      l.filter q = if q c then [c] else [] := by
  intro l
  induction l with
  | nil => intro h _; simp at h
  | cons a l ih =>
    intro h hqp
    rw [List.filter_cons] at h ⊢
    by_cases hpa : p a = true
    · rw [if_pos hpa] at h
      obtain ⟨rfl, htl⟩ : a = c ∧ l.filter p = [] := by
        constructor
        · exact (List.cons_eq_cons.mp h).1
        · exact (List.cons_eq_cons.mp h).2
      have hnq : l.filter q = [] := by
        rw [List.filter_eq_nil_iff] at htl ⊢
        intro x hx hqx
        exact htl x hx (hqp x hqx)
      cases hqc : q a with
      | true => simp [hnq]
      | false => simp [hnq]
    · rw [if_neg hpa] at h
      have hqa : q a ≠ true := fun hq => hpa (hqp a hq)
      rw [if_neg hqa]
      exact ih h hqp

/-- Renaming the unique alias column to noc relocates lookups of noc to
the old column position. -/
theorem idxOf?_rename_unique {c : String} :
    ∀ {cols : List String}, (∀ x ∈ cols, x = "noc" → x = c) →
      idxOf? "noc" (cols.map (fun x => if x = c then "noc" else x)) = idxOf? c cols := by
  intro cols
  induction cols with
  | nil => intro _; rfl
  | cons a l ih =>
    intro h
    simp only [List.map_cons, idxOf?]
    by_cases hac : a = c
    · simp [hac]
    · have hanoc : a ≠ "noc" := fun han => hac (h a (List.mem_cons_self a l) han)
      simp [hac, hanoc, ih (fun x hx => h x (List.mem_cons_of_mem a hx))]

/-- C9: when exactly one column name is a country-code alias (noc,
country_code or code, case-insensitively), normalize_noc_column of
src/pages/Global_Analysis.py lines 57-65 renames exactly that column to
noc: the row content is untouched (same rows, same values, same order),
noc is present afterwards, and reading noc reads the old column's
position. -/
theorem noc_alias_normalization
    (t : Table) (c : String)
    (hc : t.cols.filter isNocAlias = [c]) :
    normalize_noc_column t
      = ⟨t.cols.map (fun x => if x = c then "noc" else x), t.rows⟩ ∧
    (normalize_noc_column t).rows = t.rows ∧
    "noc" ∈ (normalize_noc_column t).cols ∧
    ∀ r : List Value, cellVal (normalize_noc_column t).cols r "noc" = cellVal t.cols r c := by
  have hcmem : c ∈ t.cols.filter isNocAlias := by
    rw [hc]
    exact List.mem_singleton.mpr rfl
  have hcin : c ∈ t.cols := (List.mem_filter.mp hcmem).1
  have hcalias : isNocAlias c = true := (List.mem_filter.mp hcmem).2
  have huniq : ∀ x ∈ t.cols, isNocAlias x = true → x = c := by
    intro x hx hax
    have : x ∈ t.cols.filter isNocAlias := List.mem_filter.mpr ⟨hx, hax⟩
    rw [hc] at this
    exact List.mem_singleton.mp this
  have hnocc : ∀ x ∈ t.cols, x = "noc" → x = c := by
    intro x hx hxn
    exact huniq x hx (by rw [hxn]; rfl)
  have hq1 : ∀ x : String, (lowerStr x == "noc") = true → isNocAlias x = true := by
    intro x h
    simp only [isNocAlias, h, Bool.true_or]
  have hq2 : ∀ x : String, (lowerStr x == "country_code") = true → isNocAlias x = true := by
    intro x h
    simp only [isNocAlias, h, Bool.or_true, Bool.true_or]
  have hq3 : ∀ x : String, (lowerStr x == "code") = true → isNocAlias x = true := by
    intro x h
    simp only [isNocAlias, h, Bool.or_true]
  have hf1 := filter_sub hc hq1
  have hf2 := filter_sub hc hq2
  have hf3 := filter_sub hc hq3
  have hdisj : lowerStr c = "noc" ∨ lowerStr c = "country_code" ∨ lowerStr c = "code" := by
    have := hcalias
    simp only [isNocAlias, Bool.or_eq_true, beq_iff_eq] at this
    tauto
  have hre : normalize_noc_column t = t.rename c "noc" := by
    rcases hdisj with hlc | hlc | hlc
    · have hl1 : lastLower? t.cols "noc" = some c := by
        unfold lastLower?
        rw [hf1, if_pos (by rw [hlc]; rfl)]
        rfl
      unfold normalize_noc_column
      rw [hl1]
    · have hl1 : lastLower? t.cols "noc" = none := by
        unfold lastLower?
        rw [hf1, if_neg (by rw [hlc]; simp)]
        rfl
      have hl2 : lastLower? t.cols "country_code" = some c := by
        unfold lastLower?
        rw [hf2, if_pos (by rw [hlc]; rfl)]
        rfl
      unfold normalize_noc_column
      rw [hl1, hl2]
    · have hl1 : lastLower? t.cols "noc" = none := by
        unfold lastLower?
        rw [hf1, if_neg (by rw [hlc]; simp)]
        rfl
      have hl2 : lastLower? t.cols "country_code" = none := by
        unfold lastLower?
        rw [hf2, if_neg (by rw [hlc]; simp)]
        rfl
      have hl3 : lastLower? t.cols "code" = some c := by
        unfold lastLower?
        rw [hf3, if_pos (by rw [hlc]; rfl)]
        rfl
      unfold normalize_noc_column
      rw [hl1, hl2, hl3]
  refine ⟨hre, by rw [hre]; rfl, ?_, ?_⟩
  · rw [hre]
    exact List.mem_map.mpr ⟨c, hcin, by simp⟩
  · intro r
    rw [hre]
    show cellVal (t.cols.map (fun x => if x = c then "noc" else x)) r "noc" = cellVal t.cols r c
    unfold cellVal
    rw [idxOf?_rename_unique hnocc]

/-- Witness for C9: a table whose country-code column is country_code is
renamed to noc with identical row content. -/
theorem noc_alias_normalization_witness :
    normalize_noc_column ⟨["country_code", "Gold"], [[Value.str "USA", Value.int 1]]⟩
      = ⟨["noc", "Gold"], [[Value.str "USA", Value.int 1]]⟩ :=
  ((noc_alias_normalization ⟨["country_code", "Gold"], [[Value.str "USA", Value.int 1]]⟩
      "country_code" (by decide)).1).trans (by decide)

/-- Characterization of find? as the first satisfying element. -/
theorem find?_eq_some_iff_split {α : Type} {p : α → Bool} {c : α} :
    ∀ {l : List α}, l.find? p = some c ↔
      ∃ l₁ l₂, l = l₁ ++ c :: l₂ ∧ p c = true ∧ ∀ x ∈ l₁, p x = false := by
  intro l
  induction l with
  | nil =>
    simp only [List.find?_nil]
    constructor
    · intro h; exact absurd h (by simp)
    · rintro ⟨l₁, l₂, h, -, -⟩
      exact absurd h (by simp)
  | cons a l ih =>
    rw [List.find?_cons]
    cases hpa : p a with
    | true =>
      constructor
      · intro h
        obtain rfl : a = c := by simpa using h
        exact ⟨[], l, rfl, hpa, by simp⟩
      · rintro ⟨l₁, l₂, hsplit, hpc, hnone⟩
        cases l₁ with
        | nil =>
          obtain rfl : a = c := by simpa using congrArg (fun x => x.head?) hsplit
          rfl
        | cons a' l₁' =>
          have ha' : a' = a := by simpa using congrArg (fun x => x.head?) hsplit.symm
          have hfa : p a = false := ha' ▸ hnone a' (List.mem_cons_self a' l₁')
          rw [hpa] at hfa
          exact absurd hfa (by simp)
    | false =>
      rw [ih]
      constructor
      · rintro ⟨l₁, l₂, hsplit, hpc, hnone⟩
        refine ⟨a :: l₁, l₂, by rw [List.cons_append, hsplit], hpc, ?_⟩
        intro x hx
        rcases List.mem_cons.mp hx with rfl | hx'
        · exact hpa
        · exact hnone x hx'
      · rintro ⟨l₁, l₂, hsplit, hpc, hnone⟩
        cases l₁ with
        | nil =>
          obtain rfl : a = c := by simpa using congrArg (fun x => x.head?) hsplit
          rw [hpa] at hpc
          exact absurd hpc (by simp)
        | cons a' l₁' =>
          have htail : l = l₁' ++ c :: l₂ := by
            simpa using congrArg (fun x => x.tail) hsplit
          exact ⟨l₁', l₂, htail, hpc, fun x hx => hnone x (List.mem_cons_of_mem a' hx)⟩

/-- C5 amended: the resolver makes a single pass and returns the first
column whose lowercased name equals OR contains the alias; an earlier
substring-only match therefore wins over a later exact match, and none
is returned exactly when no column matches at all. -/
theorem resolver_single_pass_first_match (t : Table) (m : String) :
    (∀ c : String, get_medal_column t m = some c ↔
      ∃ l₁ l₂, t.cols = l₁ ++ c :: l₂ ∧ medalColMatches m c = true ∧
        ∀ x ∈ l₁, medalColMatches m x = false) ∧
    (get_medal_column t m = none ↔ ∀ x ∈ t.cols, medalColMatches m x = false) := by
  constructor
  · intro c
    exact find?_eq_some_iff_split
  · unfold get_medal_column
    rw [List.find?_eq_none]
    constructor
    · intro h x hx
      have := h x hx
      simpa using this
    · intro h x hx
      rw [h x hx]
      simp

/-- C5 counterexample: the table with columns Goldfish then Gold has an
exact-match column for the gold role, yet the resolver returns the
earlier substring-only match Goldfish, contradicting the claimed
exact-match-first tie-break. -/
theorem resolver_prefers_earlier_substring_counterexample :
    get_medal_column ⟨["Goldfish", "Gold"], []⟩ "gold" = some "Goldfish" ∧
    lowerStr "Goldfish" ≠ "gold" ∧
    "Gold" ∈ (⟨["Goldfish", "Gold"], []⟩ : Table).cols ∧
    lowerStr "Gold" = "gold" := by
  refine ⟨by decide, by decide, by decide, by decide⟩

/-- C8 amended: load_data of src/utils.py returns the four empty tables
with their canonical columns pre-declared whenever any source file is
missing (the bare loaders of src/utils/data_loader.py instead propagate
the error, see the counterexample). -/
theorem load_data_missing_file_returns_empty_tables
    (fa fe fm fn : Option Table)
    (h : fa = none ∨ fe = none ∨ fm = none ∨ fn = none) :
    load_data fa fe fm fn =
      (⟨["id", "sport"], []⟩,
       ⟨["sport", "event_id"], []⟩,
       ⟨["noc", "gold", "silver", "bronze", "total"], []⟩,
       ⟨["noc", "country"], []⟩) := by
  cases fa <;> cases fe <;> cases fm <;> cases fn <;> first | rfl | simp at h

/-- Witness for C8 with the medals file missing. -/
theorem load_data_missing_file_returns_empty_tables_witness :
    load_data (some ⟨[], []⟩) (some ⟨[], []⟩) none (some ⟨[], []⟩) =
      (⟨["id", "sport"], []⟩,
       ⟨["sport", "event_id"], []⟩,
       ⟨["noc", "gold", "silver", "bronze", "total"], []⟩,
       ⟨["noc", "country"], []⟩) :=
  load_data_missing_file_returns_empty_tables _ _ _ _ (Or.inr (Or.inr (Or.inl rfl)))

/-- C8 counterexample: the loader of src/utils/data_loader.py raises the
missing-file error to its caller instead of returning an empty table. -/
theorem loader_raises_counterexample :
    load_athletes none = Except.error "FileNotFoundError" := rfl

/-- A non-null cell is kept by the notna filter. -/
theorem nonNull_of_ne_null {v : Value} (h : v ≠ Value.null) : Value.nonNull v = true := by
  cases v with
  | int n => rfl
  | str s => rfl
  | null => exact absurd rfl h

/-- C4 amended: when the filtered column has no null entries, the filter
with the full available option set returns exactly the same table as the
filter with the empty selection (both are the identity).  With a null
entry the two differ, see the counterexample. -/
theorem empty_selection_equals_full_options
    (t : Table) (col : String)
    (hnn : ∀ r ∈ t.rows, cellVal t.cols r col ≠ Value.null) :
    applyOptionFilter t col (availableOptions t col) = applyOptionFilter t col [] := by
  have hrhs : applyOptionFilter t col [] = t := by
    unfold applyOptionFilter
    rw [if_neg (by simp)]
  rw [hrhs]
  cases hrows : t.rows with
  | nil =>
    unfold applyOptionFilter
    rw [if_neg (by rw [hrows]; simp)]
  | cons r0 rs =>
    have hmemopt : ∀ r ∈ t.rows, cellVal t.cols r col ∈ availableOptions t col := by
      intro r hr
      apply mem_sort_dedup
      unfold keyValsOf
      exact List.mem_filter.mpr
        ⟨List.mem_map.mpr ⟨r, hr, rfl⟩, nonNull_of_ne_null (hnn r hr)⟩
    have hne : availableOptions t col ≠ [] := by
      intro hempty
      have := hmemopt r0 (by rw [hrows]; exact List.mem_cons_self r0 rs)
      rw [hempty] at this
      simp at this
    unfold applyOptionFilter
    rw [if_pos (by
      rw [hrows]
      simp only [List.isEmpty_cons, Bool.not_false, Bool.and_true]
      cases hopt : availableOptions t col with
      | nil => exact absurd hopt hne
      | cons a l => simp)]
    have hfilter : t.rows.filter (fun r => memVal (cellVal t.cols r col) (availableOptions t col)) = t.rows := by
      rw [List.filter_eq_self]
      intro r hr
      exact memVal_iff.mpr (hmemopt r hr)
    rw [hfilter]

/-- Witness for C4 on a null-free table: full available options filter
to the identical table. -/
theorem empty_selection_equals_full_options_witness :
    applyOptionFilter exampleMedals "noc" (availableOptions exampleMedals "noc")
      = applyOptionFilter exampleMedals "noc" [] :=
  empty_selection_equals_full_options exampleMedals "noc" (by decide)

/-- C4 counterexample: with a null country code in one row, the empty
selection keeps both rows but the full available option set drops the
null row, so the two filtered tables differ. -/
theorem empty_selection_full_options_counterexample :
    applyOptionFilter nullNocMedals "noc" (availableOptions nullNocMedals "noc")
      ≠ applyOptionFilter nullNocMedals "noc" [] := by decide

theorem valMatch_true_iff {v w : Value} : valMatch v w = true ↔ v = w := by
  simp [valMatch]

/-- A membership-based version of contains for column names. -/
theorem contains_eq_true_of_mem {c : String} {l : List String} (h : c ∈ l) :
    l.contains c = true := by
  induction l with
  | nil => simp at h
  | cons a l ih =>
    rcases List.mem_cons.mp h with rfl | h'
    · simp [List.contains_cons]
    · rw [List.contains_cons, ih h', Bool.or_true]

/-- When each per-row expansion is a singleton, the concatenation is a
plain map. -/
theorem catMapRows_map {f : List Value → List (List Value)} {g : List Value → List Value} :
    ∀ {l : List (List Value)}, (∀ r ∈ l, f r = [g r]) → catMapRows f l = l.map g := by
  intro l
  induction l with
  | nil => intro _; rfl
  | cons r rs ih =>
    intro h
    unfold catMapRows
    rw [h r (List.mem_cons_self r rs), ih (fun x hx => h x (List.mem_cons_of_mem r hx))]
    rfl

/-- With fully unique keys (null included, since merge keys match NaN to
NaN), the rows matching a key are exactly the first found match (or
nothing). -/
theorem filter_match_eq_find {f : List Value → Value} {kv : Value} :
    ∀ {rs : List (List Value)},
      (rs.map f).Nodup →
      rs.filter (fun rr => valMatch kv (f rr))
        = (rs.find? (fun rr => valMatch kv (f rr))).toList := by
  intro rs
  induction rs with
  | nil => intro _; rfl
  | cons r rs ih =>
    intro hnd
    rw [List.map_cons, List.nodup_cons] at hnd
    obtain ⟨hnotin, hndtail⟩ := hnd
    rw [List.filter_cons, List.find?_cons]
    cases hp : valMatch kv (f r) with
    | true =>
      have hkv : kv = f r := valMatch_true_iff.mp hp
      have hrest : rs.filter (fun rr => valMatch kv (f rr)) = [] := by
        rw [List.filter_eq_nil_iff]
        intro x hx hmatch
        have hkv2 : kv = f x := valMatch_true_iff.mp hmatch
        apply hnotin
        have hfx : f r = f x := by rw [← hkv, hkv2]
        rw [hfx]
        exact List.mem_map.mpr ⟨x, hx, rfl⟩
      simp [hrest]
    | false =>
      simpa using ih hndtail

/-- Keys of a de-duplicated row list are fully unique (null included,
matching drop_duplicates which also collapses NaN keys) and avoid the
seen set. -/
theorem dedup_keys_nodup {cols : List String} {key : String} :
    ∀ (rs : List (List Value)) (seen : List Value),
      ((dedupByKeyAux cols key seen rs).map (fun rr => cellVal cols rr key)).Nodup ∧
      (∀ v ∈ (dedupByKeyAux cols key seen rs).map (fun rr => cellVal cols rr key),
        memVal v seen = false) := by
  intro rs
  induction rs with
  | nil => intro seen; exact ⟨List.nodup_nil, by simp [dedupByKeyAux]⟩
  | cons r rs ih =>
    intro seen
    unfold dedupByKeyAux
    by_cases hseen : memVal (cellVal cols r key) seen = true
    · rw [if_pos hseen]
      exact ih seen
    · rw [if_neg hseen]
      obtain ⟨hnd, hgone⟩ := ih (cellVal cols r key :: seen)
      have hne : ∀ v ∈ (dedupByKeyAux cols key (cellVal cols r key :: seen) rs).map
          (fun rr => cellVal cols rr key), v ≠ cellVal cols r key ∧ memVal v seen = false := by
        intro v hv
        have := hgone v hv
        simp only [memVal, Bool.or_eq_false_iff, decide_eq_false_iff_not] at this
        exact ⟨fun h => this.1 h.symm, this.2⟩
      constructor
      · rw [List.map_cons, List.nodup_cons]
        refine ⟨?_, hnd⟩
        intro hmem
        exact (hne _ hmem).1 rfl
      · intro v hv
        rw [List.map_cons] at hv
        rcases List.mem_cons.mp hv with rfl | hv'
        · simpa using hseen
        · exact (hne v hv').2

/-- De-duplication by key does not change the first row found for a key
not yet seen. -/
theorem find?_dedupByKeyAux {cols : List String} {key : String} {kv : Value} :
    ∀ (rs : List (List Value)) (seen : List Value), memVal kv seen = false →
      (dedupByKeyAux cols key seen rs).find? (fun rr => valMatch kv (cellVal cols rr key))
        = rs.find? (fun rr => valMatch kv (cellVal cols rr key)) := by
  intro rs
  induction rs with
  | nil => intro seen _; rfl
  | cons r rs ih =>
    intro seen hseen
    unfold dedupByKeyAux
    by_cases hs : memVal (cellVal cols r key) seen = true
    · rw [if_pos hs, List.find?_cons]
      cases hp : valMatch kv (cellVal cols r key) with
      | true =>
        have hkveq : kv = cellVal cols r key := valMatch_true_iff.mp hp
        rw [← hkveq] at hs
        rw [hs] at hseen
        exact absurd hseen (by simp)
      | false => exact ih seen hseen
    · rw [if_neg hs, List.find?_cons, List.find?_cons]
      cases hp : valMatch kv (cellVal cols r key) with
      | true => rfl
      | false =>
        apply ih
        simp only [memVal, Bool.or_eq_false_iff, decide_eq_false_iff_not]
        refine ⟨?_, hseen⟩
        intro heq
        have hvm : valMatch kv (cellVal cols r key) = true :=
          valMatch_true_iff.mpr heq.symm
        rw [hp] at hvm
        exact absurd hvm (by simp)

theorem cellVal_pair_key {a b : Value} {key c : String} :
    cellVal [key, c] [a, b] key = a := by
  simp [cellVal, idxOf?]

theorem cellVal_pair_snd {a b : Value} {key c : String} (h : c ≠ key) :
    cellVal [key, c] [a, b] c = b := by
  simp [cellVal, idxOf?, Ne.symm h]

/-- Core shape of a left merge against a two-column lookup table whose
keys (null included) are fully unique: exactly one output row per input
row. -/
theorem leftMergeOn_unique_rows
    (L R : Table) (key c : String)
    (hRcols : R.cols = [key, c]) (hcne : c ≠ key)
    (hkeys : (R.rows.map (fun rr => cellVal R.cols rr key)).Nodup) :
    leftMergeOn L R key
      = ⟨L.cols ++ [c],
         L.rows.map (fun lr => lr ++ [firstMatchVal R key (cellVal L.cols lr key) c])⟩ := by
  have hextra : R.cols.filter (fun x => decide (x ≠ key)) = [c] := by
    rw [hRcols]
    simp [hcne]
  unfold leftMergeOn
  simp only [hextra]
  apply congrArg (Table.mk (L.cols ++ [c]))
  apply catMapRows_map
  intro lr _
  rw [@filter_match_eq_find (fun rr => cellVal R.cols rr key) (cellVal L.cols lr key) R.rows hkeys]
  cases hf : R.rows.find? (fun rr => valMatch (cellVal L.cols lr key) (cellVal R.cols rr key)) with
  | none => simp [firstMatchVal, hf]
  | some rr0 => simp [firstMatchVal, hf]

/-- The key column of a two-column projection carries the original key
values. -/
theorem select_pair_keys (N : Table) (key c : String) :
    (N.select [key, c]).rows.map (fun rr => cellVal (N.select [key, c]).cols rr key)
      = N.rows.map (fun rr => cellVal N.cols rr key) := by
  show ((N.rows.map fun r => [key, c].map (fun x => cellVal N.cols r x)).map
      (fun rr => cellVal [key, c] rr key)) = _
  rw [List.map_map]
  apply List.map_congr_left
  intro rr _
  show cellVal [key, c] [cellVal N.cols rr key, cellVal N.cols rr c] key = cellVal N.cols rr key
  exact cellVal_pair_key

/-- Looking up the first match in the two-column projection equals the
lookup in the original metadata table. -/
theorem firstMatchVal_select_pair (N : Table) (key c : String) (kv : Value) (hcne : c ≠ key) :
    firstMatchVal (N.select [key, c]) key kv c = firstMatchVal N key kv c := by
  unfold firstMatchVal
  have hfind : (N.select [key, c]).rows.find?
        (fun rr => valMatch kv (cellVal (N.select [key, c]).cols rr key))
      = (N.rows.find? (fun rr => valMatch kv (cellVal N.cols rr key))).map
          (fun rr => [key, c].map (fun x => cellVal N.cols rr x)) := by
    show ((N.rows.map fun r => [key, c].map (fun x => cellVal N.cols r x)).find? _) = _
    rw [find?_map_comm]
    have hpred : (fun x => valMatch kv
          (cellVal (N.select [key, c]).cols ([key, c].map (fun y => cellVal N.cols x y)) key))
        = (fun rr => valMatch kv (cellVal N.cols rr key)) := by
      funext rr
      show valMatch kv (cellVal [key, c] [cellVal N.cols rr key, cellVal N.cols rr c] key)
        = valMatch kv (cellVal N.cols rr key)
      rw [cellVal_pair_key]
    rw [hpred]
  rw [hfind]
  cases hf : N.rows.find? (fun rr => valMatch kv (cellVal N.cols rr key)) with
  | none => rfl
  | some rr0 =>
    show cellVal (N.select [key, c]).cols ([key, c].map (fun x => cellVal N.cols rr0 x)) c
      = cellVal N.cols rr0 c
    show cellVal [key, c] [cellVal N.cols rr0 key, cellVal N.cols rr0 c] c = cellVal N.cols rr0 c
    exact cellVal_pair_snd hcne

/-- Merging against a projected metadata table whose keys (null
included) are unique keeps one row per primary row and carries the
first matching value. -/
theorem leftMerge_select_pair
    (L N : Table) (key c : String) (hcne : c ≠ key)
    (hkeys : (N.rows.map (fun rr => cellVal N.cols rr key)).Nodup) :
    leftMergeOn L (N.select [key, c]) key
      = ⟨L.cols ++ [c],
         L.rows.map (fun lr => lr ++ [firstMatchVal N key (cellVal L.cols lr key) c])⟩ := by
  have hkeysS : ((N.select [key, c]).rows.map
      (fun rr => cellVal (N.select [key, c]).cols rr key)).Nodup := by
    rw [select_pair_keys]
    exact hkeys
  rw [leftMergeOn_unique_rows L (N.select [key, c]) key c rfl hcne hkeysS]
  apply congrArg (Table.mk (L.cols ++ [c]))
  apply List.map_congr_left
  intro lr _
  rw [firstMatchVal_select_pair N key c _ hcne]

/-- Merging against the de-duplicated projection carries the FIRST
metadata occurrence of each key, with no uniqueness assumption. -/
theorem leftMerge_select_pair_dedup
    (L N : Table) (key c : String) (hcne : c ≠ key) :
    leftMergeOn L (dedupByKey (N.select [key, c]) key) key
      = ⟨L.cols ++ [c],
         L.rows.map (fun lr => lr ++ [firstMatchVal N key (cellVal L.cols lr key) c])⟩ := by
  have hcols : (dedupByKey (N.select [key, c]) key).cols = [key, c] := rfl
  have hkeysD : ((dedupByKey (N.select [key, c]) key).rows.map
      (fun rr => cellVal (dedupByKey (N.select [key, c]) key).cols rr key)).Nodup :=
    (dedup_keys_nodup (N.select [key, c]).rows []).1
  rw [leftMergeOn_unique_rows L _ key c hcols hcne hkeysD]
  apply congrArg (Table.mk (L.cols ++ [c]))
  apply List.map_congr_left
  intro lr _
  have hfm : firstMatchVal (dedupByKey (N.select [key, c]) key) key (cellVal L.cols lr key) c
      = firstMatchVal (N.select [key, c]) key (cellVal L.cols lr key) c := by
    unfold firstMatchVal
    have hfind := @find?_dedupByKeyAux (N.select [key, c]).cols key (cellVal L.cols lr key)
      (N.select [key, c]).rows [] rfl
    rw [show (dedupByKey (N.select [key, c]) key).cols = (N.select [key, c]).cols from rfl,
        show (dedupByKey (N.select [key, c]) key).rows
          = dedupByKeyAux (N.select [key, c]).cols key [] (N.select [key, c]).rows from rfl,
        hfind]
  rw [hfm, firstMatchVal_select_pair N key c _ hcne]

theorem set_append_len {v w : Value} :
    ∀ {lr : List Value}, (lr ++ [v]).set lr.length w = lr ++ [w] := by
  intro lr
  induction lr with
  | nil => rfl
  | cons a l ih =>
    simp only [List.cons_append, List.length_cons, List.set_cons_succ]
    rw [ih]

theorem rename_mk (cols : List String) (rows : List (List Value)) (old nw : String) :
    Table.rename ⟨cols, rows⟩ old nw = ⟨cols.map (fun x => if x = old then nw else x), rows⟩ := rfl

theorem fillnaCol_mk {cols : List String} {rows : List (List Value)} {c : String} {v : Value}
    {i : Nat} (hi : idxOf? c cols = some i) :
    fillnaCol ⟨cols, rows⟩ c v
      = ⟨cols, rows.map (fun r => if r.getD i Value.null = Value.null then r.set i v else r)⟩ := by
  simp only [fillnaCol, hi]

theorem continentFor_ne_null (nocs : Table) (cand : String) (kv : Value) :
    continentFor nocs cand kv ≠ Value.null := by
  unfold continentFor
  by_cases h : firstMatchVal nocs "noc" kv cand = Value.null
  · rw [if_pos h]
    simp
  · rw [if_neg h]
    exact h

/-- Appending unrelated names keeps identity under a rename map. -/
theorem map_rename_append {cols : List String} {cand nw : String} (hcnm : cand ∉ cols) :
    (cols ++ [cand]).map (fun x => if x = cand then nw else x) = cols ++ [nw] := by
  rw [List.map_append]
  congr 1
  · calc cols.map (fun x => if x = cand then nw else x)
        = cols.map id := List.map_congr_left (by
          intro x hx
          have hxc : x ≠ cand := by
            intro heq
            rw [heq] at hx
            exact hcnm hx
          rw [if_neg hxc]
          rfl)
      _ = cols := List.map_id cols
  · simp

/-- C6 amended: when the metadata table has at most one row per country
code — null keys included, since pandas merge matches NaN keys to each
other — continent enrichment is row-count preserving: one output row
per input row, extended with the continent of the first metadata match
(a null-key medals row matching the null-key metadata row, if any), and
every row ends with a non-null continent, unmatched codes falling back
to Other.  With duplicate metadata codes the left join fans out, see
the counterexample. -/
theorem continent_enrichment_row_preserving
    (medals nocs : Table) (countries : Option Table) (cand : String)
    (hw : medals.WF)
    (hcand : (["continent", "region"]).find? (fun c => nocs.cols.contains c) = some cand)
    (hcne : cand ≠ "noc") (hcnm : cand ∉ medals.cols) (hcont : "continent" ∉ medals.cols)
    (hkeys : (nocs.rows.map (fun rr => cellVal nocs.cols rr "noc")).Nodup) :
    (add_continent_column medals nocs countries).cols = medals.cols ++ ["continent"] ∧
    (add_continent_column medals nocs countries).rows
      = medals.rows.map (fun r => r ++ [continentFor nocs cand (cellVal medals.cols r "noc")]) ∧
    (add_continent_column medals nocs countries).rows.length = medals.rows.length ∧
    ∀ r ∈ (add_continent_column medals nocs countries).rows,
      cellVal (add_continent_column medals nocs countries).cols r "continent" ≠ Value.null := by
  have hstep : add_continent_column medals nocs countries
      = fillnaCol ((leftMergeOn medals (nocs.select ["noc", cand]) "noc").rename cand "continent")
          "continent" (Value.str "Other") := by
    unfold add_continent_column
    rw [hcand]
  have hmerge := leftMerge_select_pair medals nocs "noc" cand hcne hkeys
  have hren : (leftMergeOn medals (nocs.select ["noc", cand]) "noc").rename cand "continent"
      = ⟨medals.cols ++ ["continent"],
         medals.rows.map (fun lr => lr ++
           [firstMatchVal nocs "noc" (cellVal medals.cols lr "noc") cand])⟩ := by
    rw [hmerge, rename_mk, map_rename_append hcnm]
  have hidx : idxOf? "continent" (medals.cols ++ ["continent"]) = some medals.cols.length :=
    idxOf?_append_self hcont
  have hfill : add_continent_column medals nocs countries
      = ⟨medals.cols ++ ["continent"],
         medals.rows.map (fun lr => lr ++
           [continentFor nocs cand (cellVal medals.cols lr "noc")])⟩ := by
    rw [hstep, hren, fillnaCol_mk hidx]
    apply congrArg (Table.mk (medals.cols ++ ["continent"]))
    rw [List.map_map]
    apply List.map_congr_left
    intro lr hlr
    show (if (lr ++ [firstMatchVal nocs "noc" (cellVal medals.cols lr "noc") cand]).getD
            medals.cols.length Value.null = Value.null
          then (lr ++ [firstMatchVal nocs "noc" (cellVal medals.cols lr "noc") cand]).set
            medals.cols.length (Value.str "Other")
          else lr ++ [firstMatchVal nocs "noc" (cellVal medals.cols lr "noc") cand])
        = lr ++ [continentFor nocs cand (cellVal medals.cols lr "noc")]
    have hlen : lr.length = medals.cols.length := hw lr hlr
    rw [← hlen, getD_append_len, set_append_len]
    unfold continentFor
    by_cases hfm : firstMatchVal nocs "noc" (cellVal medals.cols lr "noc") cand = Value.null
    · rw [if_pos hfm, if_pos hfm]
    · rw [if_neg hfm, if_neg hfm]
  refine ⟨by rw [hfill], by rw [hfill], by rw [hfill]; rw [List.length_map], ?_⟩
  intro r hr
  rw [hfill] at hr ⊢
  obtain ⟨lr, hlr, rfl⟩ := List.mem_map.mp hr
  show cellVal (medals.cols ++ ["continent"]) _ "continent" ≠ Value.null
  rw [cellVal_append_new hcont (hw lr hlr)]
  exact continentFor_ne_null nocs cand _

/-- Witness for C6: one USA row enriched against unique metadata keeps
one row with continent America; a code with no metadata match gets
Other. -/
theorem continent_enrichment_row_preserving_witness :
    (add_continent_column oneUsaMedals
      ⟨["noc", "continent"], [[Value.str "USA", Value.str "America"]]⟩ none).rows
      = [[Value.str "USA", Value.int 1, Value.str "America"]] :=
  ((continent_enrichment_row_preserving oneUsaMedals
      ⟨["noc", "continent"], [[Value.str "USA", Value.str "America"]]⟩ none "continent"
      (by decide) (by decide) (by decide) (by decide) (by decide) (by decide)).2.1).trans
    (by decide)

/-- C6 counterexample: a metadata table with USA listed twice makes the
continent left join fan out, so the enriched table has 2 rows where the
medal table had 1 — the claimed unconditional row-count preservation
fails. -/
theorem continent_enrichment_fans_out_counterexample :
    oneUsaMedals.rows.length = 1 ∧
    (add_continent_column oneUsaMedals dupUsaNocsContinent none).rows.length = 2 := by
  refine ⟨rfl, by decide⟩

/-- C7 amended: the Global_Analysis country-name enrichment first
de-duplicates the metadata on the code (keeping the first occurrence),
so the join is row-count preserving and carries the first metadata
occurrence's name; the utils.py variant omits the de-duplication and
fans out on duplicate codes, see the counterexample. -/
theorem country_name_first_occurrence
    (medals nocs : Table) (c : String)
    (hw : medals.WF)
    (hmn : "noc" ∈ medals.cols) (hnn : "noc" ∈ nocs.cols)
    (hpick : pickCountryCol nocs = some c)
    (hcne : c ≠ "noc") (hcnm : c ∉ medals.cols) :
    (mergeCountryGA medals nocs).cols = medals.cols ++ ["country"] ∧
    (mergeCountryGA medals nocs).rows
      = medals.rows.map (fun r => r ++ [countryNameFor nocs c (cellVal medals.cols r "noc")]) ∧
    (mergeCountryGA medals nocs).rows.length = medals.rows.length := by
  have hguard : (medals.cols.contains "noc" && nocs.cols.contains "noc") = true := by
    rw [contains_eq_true_of_mem hmn, contains_eq_true_of_mem hnn]
    rfl
  have hstep : mergeCountryGA medals nocs
      = (leftMergeOn medals (dedupByKey (nocs.select ["noc", c]) "noc") "noc").rename
          c "country" := by
    unfold mergeCountryGA
    rw [if_pos hguard, hpick]
  have hmerge := leftMerge_select_pair_dedup medals nocs "noc" c hcne
  have hres : mergeCountryGA medals nocs
      = ⟨medals.cols ++ ["country"],
         medals.rows.map (fun lr => lr ++
           [countryNameFor nocs c (cellVal medals.cols lr "noc")])⟩ := by
    rw [hstep, hmerge, rename_mk, map_rename_append hcnm]
    rfl
  exact ⟨by rw [hres], by rw [hres], by rw [hres]; rw [List.length_map]⟩

/-- Witness for C7: the spec scenario itself — metadata listing USA
twice joined onto a single USA row yields exactly one USA row carrying
the first occurrence's spelling. -/
theorem country_name_first_occurrence_witness :
    (mergeCountryGA oneUsaMedals dupUsaNocsCountry).rows
      = [[Value.str "USA", Value.int 1, Value.str "United States"]] :=
  ((country_name_first_occurrence oneUsaMedals dupUsaNocsCountry "country"
      (by decide) (by decide) (by decide) (by decide) (by decide) (by decide)).2.1).trans
    (by decide)

/-- C7 counterexample: the utils.py country-name merge (cited by the
claim) has no de-duplication, so the duplicate-USA metadata produces two
USA rows instead of one — the claim is false of that cited code path. -/
theorem country_name_merge_utils_fans_out_counterexample :
    oneUsaMedals.rows.length = 1 ∧
    (mergeCountryUtils oneUsaMedals dupUsaNocsCountry).rows.length = 2 := by
  refine ⟨rfl, by decide⟩

theorem setColZero_eq {t : Table} {c : String} {i : Nat} (hi : idxOf? c t.cols = some i) :
    setColZero t c = ⟨t.cols, t.rows.map (fun r => r.set i (Value.int 0))⟩ :=
  assignComputedCol_some hi

/-- Zeroing one column leaves the key values of every row unchanged. -/
theorem keyVals_setColZero {t : Table} {c key : String} {i : Nat}
    (hi : idxOf? c t.cols = some i) (hne : key ≠ c) :
    keyValsOf (setColZero t c) key = keyValsOf t key := by
  rw [setColZero_eq hi]
  unfold keyValsOf
  show ((t.rows.map (fun r => r.set i (Value.int 0))).map
    (fun r => cellVal t.cols r key)).filter Value.nonNull = _
  rw [List.map_map]
  congr 1
  apply List.map_congr_left
  intro r _
  exact cellVal_set_ne hi hne

theorem aggKeys_setColZero {t : Table} {c key : String} {i : Nat}
    (hi : idxOf? c t.cols = some i) (hne : key ≠ c) :
    aggKeys (setColZero t c) key = aggKeys t key := by
  unfold aggKeys
  rw [show keyValsOf (setColZero t c) key = keyValsOf t key from keyVals_setColZero hi hne]

/-- The rows of a key group after zeroing one column are the zeroed rows
of the original group. -/
theorem groupRows_setColZero {t : Table} {c key : String} {k : Value} {i : Nat}
    (hi : idxOf? c t.cols = some i) (hne : key ≠ c) :
    groupRows (setColZero t c) key k = (groupRows t key k).map (fun r => r.set i (Value.int 0)) := by
  rw [setColZero_eq hi]
  unfold groupRows
  show (t.rows.map (fun r => r.set i (Value.int 0))).filter
    (fun r => decide (cellVal t.cols r key = k)) = _
  rw [filter_map_comm]
  congr 1
  apply List.filter_congr
  intro r _
  rw [cellVal_set_ne hi hne]

/-- Zeroing a different column does not change a group sum. -/
theorem groupColSum_setColZero_other {t : Table} {c d key : String} {k : Value} {i : Nat}
    (hi : idxOf? c t.cols = some i) (hkey : key ≠ c) (hd : d ≠ c) :
    groupColSum (setColZero t c) key k d = groupColSum t key k d := by
  unfold groupColSum
  rw [groupRows_setColZero hi hkey]
  rw [show (setColZero t c).cols = t.cols from by rw [setColZero_eq hi]]
  rw [List.map_map]
  congr 1
  apply List.map_congr_left
  intro r _
  show Value.toInt (cellVal t.cols (r.set i (Value.int 0)) d) = Value.toInt (cellVal t.cols r d)
  rw [cellVal_set_ne hi hd]

/-- Zeroing a column makes its group sums zero (on well-formed rows). -/
theorem groupColSum_setColZero_self {t : Table} {c key : String} {k : Value} {i : Nat}
    (hw : t.WF) (hi : idxOf? c t.cols = some i) (hkey : key ≠ c) :
    groupColSum (setColZero t c) key k c = 0 := by
  unfold groupColSum
  rw [groupRows_setColZero hi hkey]
  rw [show (setColZero t c).cols = t.cols from by rw [setColZero_eq hi]]
  rw [List.map_map]
  apply List.sum_eq_zero
  intro x hx
  obtain ⟨r, hr, rfl⟩ := List.mem_map.mp hx
  have hrmem : r ∈ t.rows := List.mem_of_mem_filter hr
  have hlen : i < r.length := by
    rw [hw r hrmem]
    exact idxOf?_lt_length hi
  show Value.toInt (cellVal t.cols (r.set i (Value.int 0)) c) = 0
  unfold cellVal
  rw [hi]
  show Value.toInt ((r.set i (Value.int 0)).getD i Value.null) = 0
  rw [getD_set_self hlen]
  rfl

/-- With all three medal types selected nothing is zeroed. -/
theorem zeroUnselected_all (t : Table) (gc sc bc : String) :
    zeroUnselectedMedals t ["Gold", "Silver", "Bronze"] gc sc bc = t := by
  unfold zeroUnselectedMedals
  rw [if_pos (by decide), if_pos (by decide), if_pos (by decide)]

/-- Deselecting Silver zeroes exactly the silver column. -/
theorem zeroUnselected_gold_bronze (t : Table) (gc sc bc : String) :
    zeroUnselectedMedals t ["Gold", "Bronze"] gc sc bc = setColZero t sc := by
  unfold zeroUnselectedMedals
  rw [if_pos (by decide), if_neg (by decide), if_pos (by decide)]

theorem sumCols_agg_row (key gc sc bc : String) (k : Value) (gS sS bS : Int)
    (h1 : gc ≠ key) (h4 : sc ≠ gc) (h2 : sc ≠ key) (h5 : bc ≠ gc) (h6 : bc ≠ sc)
    (h3 : bc ≠ key) :
    sumCols [key, gc, sc, bc] [k, Value.int gS, Value.int sS, Value.int bS] [gc, sc, bc]
      = gS + sS + bS := by
  unfold sumCols
  have hg : cellVal [key, gc, sc, bc] [k, Value.int gS, Value.int sS, Value.int bS] gc
      = Value.int gS := by
    simp [cellVal, idxOf?, Ne.symm h1]
  have hs : cellVal [key, gc, sc, bc] [k, Value.int gS, Value.int sS, Value.int bS] sc
      = Value.int sS := by
    simp [cellVal, idxOf?, Ne.symm h2, Ne.symm h4]
  have hb : cellVal [key, gc, sc, bc] [k, Value.int gS, Value.int sS, Value.int bS] bc
      = Value.int bS := by
    simp [cellVal, idxOf?, Ne.symm h3, Ne.symm h5, Ne.symm h6]
  simp only [List.map_cons, List.map_nil, hg, hs, hb, List.sum_cons, List.sum_nil]
  show gS + (sS + (bS + 0)) = gS + sS + bS
  ring

theorem cellVal_res_row (key gc sc bc : String) (k G S B T : Value)
    (h1 : gc ≠ key) (h4 : sc ≠ gc) (h2 : sc ≠ key) (h5 : bc ≠ gc) (h6 : bc ≠ sc)
    (h3 : bc ≠ key)
    (ht1 : key ≠ "total") (ht2 : gc ≠ "total") (ht3 : sc ≠ "total") (ht4 : bc ≠ "total") :
    cellVal [key, gc, sc, bc, "total"] [k, G, S, B, T] key = k ∧
    cellVal [key, gc, sc, bc, "total"] [k, G, S, B, T] gc = G ∧
    cellVal [key, gc, sc, bc, "total"] [k, G, S, B, T] sc = S ∧
    cellVal [key, gc, sc, bc, "total"] [k, G, S, B, T] bc = B ∧
    cellVal [key, gc, sc, bc, "total"] [k, G, S, B, T] "total" = T := by
  refine ⟨?_, ?_, ?_, ?_, ?_⟩ <;>
    simp [cellVal, idxOf?, Ne.symm h1, Ne.symm h2, Ne.symm h3, Ne.symm h4, Ne.symm h5,
      Ne.symm h6, ht1, ht2, ht3, ht4]

/-- Shape of the Global_Analysis re-aggregation: one row per distinct
country key, holding the three (possibly zeroed) medal sums and their
total. -/
theorem reAgg_shape (t : Table) (sel : List String) (gc sc bc key : String)
    (h1 : gc ≠ key) (h4 : sc ≠ gc) (h2 : sc ≠ key) (h5 : bc ≠ gc) (h6 : bc ≠ sc)
    (h3 : bc ≠ key)
    (ht1 : key ≠ "total") (ht2 : gc ≠ "total") (ht3 : sc ≠ "total") (ht4 : bc ≠ "total") :
    reAgg t sel gc sc bc key
      = ⟨[key, gc, sc, bc, "total"],
         (aggKeys (zeroUnselectedMedals t sel gc sc bc) key).map (fun k =>
           [k, Value.int (groupColSum (zeroUnselectedMedals t sel gc sc bc) key k gc),
               Value.int (groupColSum (zeroUnselectedMedals t sel gc sc bc) key k sc),
               Value.int (groupColSum (zeroUnselectedMedals t sel gc sc bc) key k bc),
               Value.int (groupColSum (zeroUnselectedMedals t sel gc sc bc) key k gc
                 + groupColSum (zeroUnselectedMedals t sel gc sc bc) key k sc
                 + groupColSum (zeroUnselectedMedals t sel gc sc bc) key k bc)])⟩ := by
  have htot : "total" ∉ [key, gc, sc, bc] := by
    simp only [List.mem_cons, List.not_mem_nil, or_false]
    push_neg
    exact ⟨Ne.symm ht1, Ne.symm ht2, Ne.symm ht3, Ne.symm ht4⟩
  unfold reAgg
  rw [assignComputedCol_none (by exact htot)]
  congr 1
  rw [show (groupbySum (zeroUnselectedMedals t sel gc sc bc) key [gc, sc, bc]).rows
        = (aggKeys (zeroUnselectedMedals t sel gc sc bc) key).map (fun k =>
            [k, Value.int (groupColSum (zeroUnselectedMedals t sel gc sc bc) key k gc),
                Value.int (groupColSum (zeroUnselectedMedals t sel gc sc bc) key k sc),
                Value.int (groupColSum (zeroUnselectedMedals t sel gc sc bc) key k bc)])
      from rfl]
  rw [List.map_map]
  apply List.map_congr_left
  intro k _
  show [k, Value.int (groupColSum (zeroUnselectedMedals t sel gc sc bc) key k gc),
          Value.int (groupColSum (zeroUnselectedMedals t sel gc sc bc) key k sc),
          Value.int (groupColSum (zeroUnselectedMedals t sel gc sc bc) key k bc)]
        ++ [Value.int (sumCols [key, gc, sc, bc]
            [k, Value.int (groupColSum (zeroUnselectedMedals t sel gc sc bc) key k gc),
                Value.int (groupColSum (zeroUnselectedMedals t sel gc sc bc) key k sc),
                Value.int (groupColSum (zeroUnselectedMedals t sel gc sc bc) key k bc)]
            [gc, sc, bc])]
      = _
  rw [sumCols_agg_row key gc sc bc k _ _ _ h1 h4 h2 h5 h6 h3]
  rfl

/-- Looking up a present key in a keyed aggregate table reads that key's
row. -/
theorem lookupCell_mk_keyed {key : String} {rest : List String} {ks : List Value}
    {g : Value → List Value} {k : Value} (hk : k ∈ ks) (c : String) :
    lookupCell ⟨key :: rest, ks.map (fun x => x :: g x)⟩ key k c
      = cellVal (key :: rest) (k :: g k) c := by
  unfold lookupCell
  have hcellkey : ∀ x : Value, ∀ vs : List Value, cellVal (key :: rest) (x :: vs) key = x := by
    intro x vs
    simp [cellVal, idxOf?]
  have hfind : (ks.map (fun x => x :: g x)).find?
      (fun r => decide (cellVal (key :: rest) r key = k)) = some (k :: g k) := by
    rw [find?_map_comm]
    have hpred : (fun x => decide (cellVal (key :: rest) (x :: g x) key = k))
        = (fun x => decide (x = k)) := by
      funext x
      rw [hcellkey x (g x)]
    rw [hpred, find?_eq_self hk]
    rfl
  rw [show (⟨key :: rest, ks.map (fun x => x :: g x)⟩ : Table).rows
        = ks.map (fun x => x :: g x) from rfl]
  rw [show (⟨key :: rest, ks.map (fun x => x :: g x)⟩ : Table).cols = key :: rest from rfl]
  rw [hfind]

/-- C2: in the Global_Analysis zero-and-reaggregate pipeline, deselecting
Silver leaves every country's Gold and Bronze aggregates unchanged,
lowers that country's total by exactly its prior Silver contribution,
and drops no country from the aggregate; on the USA/CHN example table
with medal types Gold and Bronze the recomputed totals are USA 13 and
CHN 14 and the top-1-by-total row is CHN. -/
theorem silver_deselection_reaggregation
    (t : Table) (gc sc bc key : String) (k : Value)
    (hw : t.WF)
    (hsc : sc ∈ t.cols)
    (h1 : gc ≠ key) (h4 : sc ≠ gc) (h2 : sc ≠ key) (h5 : bc ≠ gc) (h6 : bc ≠ sc)
    (h3 : bc ≠ key)
    (ht1 : key ≠ "total") (ht2 : gc ≠ "total") (ht3 : sc ≠ "total") (ht4 : bc ≠ "total")
    (hk : k ∈ aggKeys t key) :
    (lookupCell (reAgg t ["Gold", "Bronze"] gc sc bc key) key k gc
       = lookupCell (reAgg t ["Gold", "Silver", "Bronze"] gc sc bc key) key k gc) ∧
    (lookupCell (reAgg t ["Gold", "Bronze"] gc sc bc key) key k bc
       = lookupCell (reAgg t ["Gold", "Silver", "Bronze"] gc sc bc key) key k bc) ∧
    (Value.toInt (lookupCell (reAgg t ["Gold", "Bronze"] gc sc bc key) key k "total")
       = Value.toInt (lookupCell (reAgg t ["Gold", "Silver", "Bronze"] gc sc bc key) key k "total")
         - Value.toInt (lookupCell (reAgg t ["Gold", "Silver", "Bronze"] gc sc bc key) key k sc)) ∧
    ((reAgg t ["Gold", "Bronze"] gc sc bc key).rows.map
        (fun r => cellVal (reAgg t ["Gold", "Bronze"] gc sc bc key).cols r key)
       = (reAgg t ["Gold", "Silver", "Bronze"] gc sc bc key).rows.map
           (fun r => cellVal (reAgg t ["Gold", "Silver", "Bronze"] gc sc bc key).cols r key)) ∧
    (Value.toInt (lookupCell (reAgg exampleMedals ["Gold", "Bronze"] "Gold" "Silver" "Bronze" "noc")
        "noc" (Value.str "USA") "total") = 13 ∧
     Value.toInt (lookupCell (reAgg exampleMedals ["Gold", "Bronze"] "Gold" "Silver" "Bronze" "noc")
        "noc" (Value.str "CHN") "total") = 14 ∧
     (topNMedals exampleMedals ["Gold", "Bronze"] "Gold" "Silver" "Bronze" "noc" 1).rows
       = [[Value.str "CHN", Value.int 8, Value.int 0, Value.int 6, Value.int 14]]) := by
  obtain ⟨i, hi⟩ := idxOf?_isSome_of_mem hsc
  have hshapeF := reAgg_shape t ["Gold", "Silver", "Bronze"] gc sc bc key
    h1 h4 h2 h5 h6 h3 ht1 ht2 ht3 ht4
  have hshapeP := reAgg_shape t ["Gold", "Bronze"] gc sc bc key
    h1 h4 h2 h5 h6 h3 ht1 ht2 ht3 ht4
  rw [zeroUnselected_all t gc sc bc] at hshapeF
  rw [zeroUnselected_gold_bronze t gc sc bc] at hshapeP
  have hfull : reAgg t ["Gold", "Silver", "Bronze"] gc sc bc key
      = ⟨[key, gc, sc, bc, "total"],
         (aggKeys t key).map (fun x =>
           [x, Value.int (groupColSum t key x gc), Value.int (groupColSum t key x sc),
               Value.int (groupColSum t key x bc),
               Value.int (groupColSum t key x gc + groupColSum t key x sc
                 + groupColSum t key x bc)])⟩ := hshapeF
  have hpart : reAgg t ["Gold", "Bronze"] gc sc bc key
      = ⟨[key, gc, sc, bc, "total"],
         (aggKeys t key).map (fun x =>
           [x, Value.int (groupColSum t key x gc), Value.int 0,
               Value.int (groupColSum t key x bc),
               Value.int (groupColSum t key x gc + 0 + groupColSum t key x bc)])⟩ := by
    rw [hshapeP, aggKeys_setColZero hi (Ne.symm h2)]
    apply congrArg (Table.mk [key, gc, sc, bc, "total"])
    apply List.map_congr_left
    intro x _
    rw [groupColSum_setColZero_other hi (Ne.symm h2) (Ne.symm h4),
        groupColSum_setColZero_self hw hi (Ne.symm h2),
        groupColSum_setColZero_other hi (Ne.symm h2) h6]
  have hcellsF := fun x => cellVal_res_row key gc sc bc x
    (Value.int (groupColSum t key x gc)) (Value.int (groupColSum t key x sc))
    (Value.int (groupColSum t key x bc))
    (Value.int (groupColSum t key x gc + groupColSum t key x sc + groupColSum t key x bc))
    h1 h4 h2 h5 h6 h3 ht1 ht2 ht3 ht4
  have hcellsP := fun x => cellVal_res_row key gc sc bc x
    (Value.int (groupColSum t key x gc)) (Value.int 0)
    (Value.int (groupColSum t key x bc))
    (Value.int (groupColSum t key x gc + 0 + groupColSum t key x bc))
    h1 h4 h2 h5 h6 h3 ht1 ht2 ht3 ht4
  have hlookF : ∀ c : String,
      lookupCell (reAgg t ["Gold", "Silver", "Bronze"] gc sc bc key) key k c
        = cellVal [key, gc, sc, bc, "total"]
            [k, Value.int (groupColSum t key k gc), Value.int (groupColSum t key k sc),
                Value.int (groupColSum t key k bc),
                Value.int (groupColSum t key k gc + groupColSum t key k sc
                  + groupColSum t key k bc)] c := by
    intro c
    rw [hfull]
    exact lookupCell_mk_keyed hk c
  have hlookP : ∀ c : String,
      lookupCell (reAgg t ["Gold", "Bronze"] gc sc bc key) key k c
        = cellVal [key, gc, sc, bc, "total"]
            [k, Value.int (groupColSum t key k gc), Value.int 0,
                Value.int (groupColSum t key k bc),
                Value.int (groupColSum t key k gc + 0 + groupColSum t key k bc)] c := by
    intro c
    rw [hpart]
    exact lookupCell_mk_keyed hk c
  refine ⟨?_, ?_, ?_, ?_, by decide, by decide, by decide⟩
  · rw [hlookF gc, hlookP gc, (hcellsF k).2.1, (hcellsP k).2.1]
  · rw [hlookF bc, hlookP bc, (hcellsF k).2.2.2.1, (hcellsP k).2.2.2.1]
  · rw [hlookF "total", hlookP "total", hlookF sc,
        (hcellsF k).2.2.2.2, (hcellsP k).2.2.2.2, (hcellsF k).2.2.1]
    show groupColSum t key k gc + 0 + groupColSum t key k bc
      = groupColSum t key k gc + groupColSum t key k sc + groupColSum t key k bc
        - groupColSum t key k sc
    ring
  · rw [hfull, hpart]
    have hmapkeys : ∀ g : Value → List Value,
        ((aggKeys t key).map (fun x => x :: g x)).map
          (fun r => cellVal (key :: [gc, sc, bc, "total"]) r key) = aggKeys t key := by
      intro g
      rw [List.map_map]
      calc ((aggKeys t key).map fun x => cellVal (key :: [gc, sc, bc, "total"]) (x :: g x) key)
          = (aggKeys t key).map id := by
            apply List.map_congr_left
            intro x _
            show cellVal (key :: [gc, sc, bc, "total"]) (x :: g x) key = x
            simp [cellVal, idxOf?]
        _ = aggKeys t key := List.map_id _
    exact (hmapkeys fun x =>
        [Value.int (groupColSum t key x gc), Value.int 0, Value.int (groupColSum t key x bc),
         Value.int (groupColSum t key x gc + 0 + groupColSum t key x bc)]).trans
      (hmapkeys fun x =>
        [Value.int (groupColSum t key x gc), Value.int (groupColSum t key x sc),
         Value.int (groupColSum t key x bc),
         Value.int (groupColSum t key x gc + groupColSum t key x sc
           + groupColSum t key x bc)]).symm

/-- Witness for C2 at the example table and country USA: the hypotheses
hold concretely and the Gold aggregate is unchanged by deselecting
Silver. -/
theorem silver_deselection_reaggregation_witness :
    (Value.str "USA") ∈ aggKeys exampleMedals "noc" ∧
    lookupCell (reAgg exampleMedals ["Gold", "Bronze"] "Gold" "Silver" "Bronze" "noc") "noc"
        (Value.str "USA") "Gold"
      = lookupCell (reAgg exampleMedals ["Gold", "Silver", "Bronze"] "Gold" "Silver" "Bronze" "noc")
          "noc" (Value.str "USA") "Gold" :=
  ⟨by decide,
   (silver_deselection_reaggregation exampleMedals "Gold" "Silver" "Bronze" "noc"
      (Value.str "USA") (by decide) (by decide) (by decide) (by decide) (by decide) (by decide)
      (by decide) (by decide) (by decide) (by decide) (by decide) (by decide) (by decide)).1⟩

theorem setColZero_cols_mem {t : Table} {c : String} (hc : c ∈ t.cols) :
    (setColZero t c).cols = t.cols := by
  obtain ⟨i, hi⟩ := idxOf?_isSome_of_mem hc
  rw [setColZero_eq hi]

theorem WF_setColZero {t : Table} {c : String} (hc : c ∈ t.cols) (hw : t.WF) :
    (setColZero t c).WF := by
  obtain ⟨i, hi⟩ := idxOf?_isSome_of_mem hc
  rw [setColZero_eq hi]
  intro r hr
  obtain ⟨r0, hr0, rfl⟩ := List.mem_map.mp hr
  show (r0.set i (Value.int 0)).length = t.cols.length
  rw [List.length_set]
  exact hw r0 hr0

theorem colSum_setColZero_other_mem {t : Table} {c d : String} (hc : c ∈ t.cols) (hd : d ≠ c) :
    colSum (setColZero t c) d = colSum t d := by
  obtain ⟨i, hi⟩ := idxOf?_isSome_of_mem hc
  rw [setColZero_eq hi]
  unfold colSum
  show ((t.rows.map (fun r => r.set i (Value.int 0))).map
    (fun r => Value.toInt (cellVal t.cols r d))).sum = _
  rw [List.map_map]
  congr 1
  apply List.map_congr_left
  intro r _
  show Value.toInt (cellVal t.cols (r.set i (Value.int 0)) d) = Value.toInt (cellVal t.cols r d)
  rw [cellVal_set_ne hi hd]

theorem colSum_setColZero_self_mem {t : Table} {c : String} (hw : t.WF) (hc : c ∈ t.cols) :
    colSum (setColZero t c) c = 0 := by
  obtain ⟨i, hi⟩ := idxOf?_isSome_of_mem hc
  rw [setColZero_eq hi]
  unfold colSum
  show ((t.rows.map (fun r => r.set i (Value.int 0))).map
    (fun r => Value.toInt (cellVal t.cols r c))).sum = 0
  rw [List.map_map]
  apply List.sum_eq_zero
  intro x hx
  obtain ⟨r, hr, rfl⟩ := List.mem_map.mp hx
  have hlen : i < r.length := by
    rw [hw r hr]
    exact idxOf?_lt_length hi
  show Value.toInt (cellVal t.cols (r.set i (Value.int 0)) c) = 0
  unfold cellVal
  rw [hi]
  show Value.toInt ((r.set i (Value.int 0)).getD i Value.null) = 0
  rw [getD_set_self hlen]
  rfl

/-- Column sums of the zeroed table: a medal column sums to its original
column sum when its type is selected and to zero otherwise. -/
theorem colSum_zeroUnselected (t : Table) (sel : List String) (gc sc bc : String)
    (hw : t.WF) (hgc : gc ∈ t.cols) (hsc : sc ∈ t.cols) (hbc : bc ∈ t.cols)
    (h4 : sc ≠ gc) (h5 : bc ≠ gc) (h6 : bc ≠ sc) :
    colSum (zeroUnselectedMedals t sel gc sc bc) gc
        = (if sel.contains "Gold" then colSum t gc else 0) ∧
    colSum (zeroUnselectedMedals t sel gc sc bc) sc
        = (if sel.contains "Silver" then colSum t sc else 0) ∧
    colSum (zeroUnselectedMedals t sel gc sc bc) bc
        = (if sel.contains "Bronze" then colSum t bc else 0) := by
  unfold zeroUnselectedMedals
  by_cases hG : sel.contains "Gold" = true
  · by_cases hS : sel.contains "Silver" = true
    · by_cases hB : sel.contains "Bronze" = true
      · simp only [hG, hS, hB, if_true]
        exact ⟨trivial, trivial, trivial⟩
      · simp only [hG, hS, if_true, if_neg hB]
        refine ⟨?_, ?_, ?_⟩
        · exact colSum_setColZero_other_mem hbc (Ne.symm h5)
        · exact colSum_setColZero_other_mem hbc (Ne.symm h6)
        · exact colSum_setColZero_self_mem hw hbc
    · by_cases hB : sel.contains "Bronze" = true
      · simp only [hG, hB, if_true, if_neg hS]
        refine ⟨?_, ?_, ?_⟩
        · exact colSum_setColZero_other_mem hsc (Ne.symm h4)
        · exact colSum_setColZero_self_mem hw hsc
        · exact colSum_setColZero_other_mem hsc h6
      · simp only [hG, if_true, if_neg hS, if_neg hB]
        have c1 : (setColZero t sc).cols = t.cols := setColZero_cols_mem hsc
        have w1 : (setColZero t sc).WF := WF_setColZero hsc hw
        refine ⟨?_, ?_, ?_⟩
        · rw [colSum_setColZero_other_mem (c1 ▸ hbc) (Ne.symm h5)]
          exact colSum_setColZero_other_mem hsc (Ne.symm h4)
        · rw [colSum_setColZero_other_mem (c1 ▸ hbc) (Ne.symm h6)]
          exact colSum_setColZero_self_mem hw hsc
        · exact colSum_setColZero_self_mem w1 (c1 ▸ hbc)
  · by_cases hS : sel.contains "Silver" = true
    · by_cases hB : sel.contains "Bronze" = true
      · simp only [hS, hB, if_true, if_neg hG]
        refine ⟨?_, ?_, ?_⟩
        · exact colSum_setColZero_self_mem hw hgc
        · exact colSum_setColZero_other_mem hgc h4
        · exact colSum_setColZero_other_mem hgc h5
      · simp only [hS, if_true, if_neg hG, if_neg hB]
        have c1 : (setColZero t gc).cols = t.cols := setColZero_cols_mem hgc
        have w1 : (setColZero t gc).WF := WF_setColZero hgc hw
        refine ⟨?_, ?_, ?_⟩
        · rw [colSum_setColZero_other_mem (c1 ▸ hbc) (Ne.symm h5)]
          exact colSum_setColZero_self_mem hw hgc
        · rw [colSum_setColZero_other_mem (c1 ▸ hbc) (Ne.symm h6)]
          exact colSum_setColZero_other_mem hgc h4
        · exact colSum_setColZero_self_mem w1 (c1 ▸ hbc)
    · by_cases hB : sel.contains "Bronze" = true
      · simp only [hB, if_true, if_neg hG, if_neg hS]
        have c1 : (setColZero t gc).cols = t.cols := setColZero_cols_mem hgc
        have w1 : (setColZero t gc).WF := WF_setColZero hgc hw
        refine ⟨?_, ?_, ?_⟩
        · rw [colSum_setColZero_other_mem (c1 ▸ hsc) (Ne.symm h4)]
          exact colSum_setColZero_self_mem hw hgc
        · exact colSum_setColZero_self_mem w1 (c1 ▸ hsc)
        · rw [colSum_setColZero_other_mem (c1 ▸ hsc) h6]
          exact colSum_setColZero_other_mem hgc h5
      · simp only [if_neg hG, if_neg hS, if_neg hB]
        have c1 : (setColZero t gc).cols = t.cols := setColZero_cols_mem hgc
        have w1 : (setColZero t gc).WF := WF_setColZero hgc hw
        have c2 : (setColZero (setColZero t gc) sc).cols = t.cols :=
          (setColZero_cols_mem (c1 ▸ hsc)).trans c1
        have w2 : (setColZero (setColZero t gc) sc).WF := WF_setColZero (c1 ▸ hsc) w1
        refine ⟨?_, ?_, ?_⟩
        · rw [colSum_setColZero_other_mem (c2 ▸ hbc) (Ne.symm h5),
              colSum_setColZero_other_mem (c1 ▸ hsc) (Ne.symm h4)]
          exact colSum_setColZero_self_mem hw hgc
        · rw [colSum_setColZero_other_mem (c2 ▸ hbc) (Ne.symm h6)]
          exact colSum_setColZero_self_mem w1 (c1 ▸ hsc)
        · exact colSum_setColZero_self_mem w2 (c2 ▸ hbc)

theorem keyVals_map_set {cols : List String} {rows : List (List Value)} {c key : String} {i : Nat}
    (hi : idxOf? c cols = some i) (hne : key ≠ c) :
    keyValsOf ⟨cols, rows.map (fun r => r.set i (Value.int 0))⟩ key
      = keyValsOf ⟨cols, rows⟩ key := by
  unfold keyValsOf
  show ((rows.map (fun r => r.set i (Value.int 0))).map
    (fun r => cellVal cols r key)).filter Value.nonNull = _
  rw [List.map_map]
  congr 1
  apply List.map_congr_left
  intro r _
  exact cellVal_set_ne hi hne

theorem groupColSum_map_set_other {cols : List String} {rows : List (List Value)}
    {c d key : String} {k : Value} {i : Nat}
    (hi : idxOf? c cols = some i) (hkey : key ≠ c) (hd : d ≠ c) :
    groupColSum ⟨cols, rows.map (fun r => r.set i (Value.int 0))⟩ key k d
      = groupColSum ⟨cols, rows⟩ key k d := by
  unfold groupColSum groupRows
  show (((rows.map (fun r => r.set i (Value.int 0))).filter
      (fun r => decide (cellVal cols r key = k))).map
        (fun r => Value.toInt (cellVal cols r d))).sum = _
  rw [filter_map_comm]
  have hfr : rows.filter (fun x => decide (cellVal cols (x.set i (Value.int 0)) key = k))
      = rows.filter (fun r => decide (cellVal cols r key = k)) := by
    apply List.filter_congr
    intro r _
    rw [cellVal_set_ne hi hkey]
  rw [hfr, List.map_map]
  congr 1
  apply List.map_congr_left
  intro r _
  show Value.toInt (cellVal cols (r.set i (Value.int 0)) d) = Value.toInt (cellVal cols r d)
  rw [cellVal_set_ne hi hd]

/-- With a stored total column the app.py pipeline skips the fallback
derivation. -/
theorem app_top10_of_total {t : Table} (h : "total" ∈ t.cols) :
    app_top10 t
      = (sortRowsDesc (groupbySum (dropnaSubset t "total") "noc" ["total"]) "total").head 10 := by
  unfold app_top10
  simp [h]

/-- Zeroing a medal column (not noc, not total) does not change the
app.py top-10 pipeline when a stored total column exists. -/
theorem app_top10_setColZero {t : Table} {c : String}
    (hc : c ∈ t.cols) (hct : c ≠ "total") (hcn : c ≠ "noc") (htot : "total" ∈ t.cols) :
    app_top10 (setColZero t c) = app_top10 t := by
  obtain ⟨i, hi⟩ := idxOf?_isSome_of_mem hc
  rw [setColZero_eq hi]
  rw [@app_top10_of_total ⟨t.cols, t.rows.map (fun r => r.set i (Value.int 0))⟩ htot,
      app_top10_of_total htot]
  have hdrop : dropnaSubset ⟨t.cols, t.rows.map (fun r => r.set i (Value.int 0))⟩ "total"
      = ⟨t.cols, (t.rows.filter (fun r => Value.nonNull (cellVal t.cols r "total"))).map
          (fun r => r.set i (Value.int 0))⟩ := by
    unfold dropnaSubset
    show (⟨t.cols, (t.rows.map (fun r => r.set i (Value.int 0))).filter
        (fun r => Value.nonNull (cellVal t.cols r "total"))⟩ : Table) = _
    rw [filter_map_comm]
    have : t.rows.filter (fun x => Value.nonNull (cellVal t.cols (x.set i (Value.int 0)) "total"))
        = t.rows.filter (fun r => Value.nonNull (cellVal t.cols r "total")) := by
      apply List.filter_congr
      intro r _
      rw [cellVal_set_ne hi (Ne.symm hct)]
    rw [this]
  rw [hdrop]
  have hgb : groupbySum ⟨t.cols, (t.rows.filter
        (fun r => Value.nonNull (cellVal t.cols r "total"))).map
          (fun r => r.set i (Value.int 0))⟩ "noc" ["total"]
      = groupbySum (dropnaSubset t "total") "noc" ["total"] := by
    have hdt : dropnaSubset t "total"
        = ⟨t.cols, t.rows.filter (fun r => Value.nonNull (cellVal t.cols r "total"))⟩ := rfl
    rw [hdt]
    unfold groupbySum
    have hak : aggKeys ⟨t.cols, (t.rows.filter
          (fun r => Value.nonNull (cellVal t.cols r "total"))).map
            (fun r => r.set i (Value.int 0))⟩ "noc"
        = aggKeys ⟨t.cols, t.rows.filter
            (fun r => Value.nonNull (cellVal t.cols r "total"))⟩ "noc" := by
      unfold aggKeys
      rw [keyVals_map_set hi (Ne.symm hcn)]
    rw [hak]
    apply congrArg (Table.mk ("noc" :: ["total"]))
    apply List.map_congr_left
    intro k _
    rw [show ["total"].map (fun c' => Value.int (groupColSum ⟨t.cols, (t.rows.filter
          (fun r => Value.nonNull (cellVal t.cols r "total"))).map
            (fun r => r.set i (Value.int 0))⟩ "noc" k c'))
        = [Value.int (groupColSum ⟨t.cols, (t.rows.filter
            (fun r => Value.nonNull (cellVal t.cols r "total"))).map
              (fun r => r.set i (Value.int 0))⟩ "noc" k "total")] from rfl]
    rw [groupColSum_map_set_other hi (Ne.symm hcn) (Ne.symm hct)]
    rfl
  rw [hgb]

/-- Zeroing any subset of the three medal columns leaves the app.py
top-10 pipeline unchanged when a stored total column exists. -/
theorem app_top10_zeroUnselected (t : Table) (sel : List String) (gc sc bc : String)
    (hgc : gc ∈ t.cols) (hsc : sc ∈ t.cols) (hbc : bc ∈ t.cols)
    (hgt : gc ≠ "total") (hst : sc ≠ "total") (hbt : bc ≠ "total")
    (hgn : gc ≠ "noc") (hsn : sc ≠ "noc") (hbn : bc ≠ "noc")
    (htot : "total" ∈ t.cols) :
    app_top10 (zeroUnselectedMedals t sel gc sc bc) = app_top10 t := by
  unfold zeroUnselectedMedals
  by_cases hG : sel.contains "Gold" = true
  · by_cases hS : sel.contains "Silver" = true
    · by_cases hB : sel.contains "Bronze" = true
      · simp only [hG, hS, hB, if_true]
      · simp only [hG, hS, if_true, if_neg hB]
        exact app_top10_setColZero hbc hbt hbn htot
    · by_cases hB : sel.contains "Bronze" = true
      · simp only [hG, hB, if_true, if_neg hS]
        exact app_top10_setColZero hsc hst hsn htot
      · simp only [hG, if_true, if_neg hS, if_neg hB]
        have c1 : (setColZero t sc).cols = t.cols := setColZero_cols_mem hsc
        rw [app_top10_setColZero (c1 ▸ hbc) hbt hbn (c1 ▸ htot)]
        exact app_top10_setColZero hsc hst hsn htot
  · by_cases hS : sel.contains "Silver" = true
    · by_cases hB : sel.contains "Bronze" = true
      · simp only [hS, hB, if_true, if_neg hG]
        exact app_top10_setColZero hgc hgt hgn htot
      · simp only [hS, if_true, if_neg hG, if_neg hB]
        have c1 : (setColZero t gc).cols = t.cols := setColZero_cols_mem hgc
        rw [app_top10_setColZero (c1 ▸ hbc) hbt hbn (c1 ▸ htot)]
        exact app_top10_setColZero hgc hgt hgn htot
    · by_cases hB : sel.contains "Bronze" = true
      · simp only [hB, if_true, if_neg hG, if_neg hS]
        have c1 : (setColZero t gc).cols = t.cols := setColZero_cols_mem hgc
        rw [app_top10_setColZero (c1 ▸ hsc) hst hsn (c1 ▸ htot)]
        exact app_top10_setColZero hgc hgt hgn htot
      · simp only [if_neg hG, if_neg hS, if_neg hB]
        have c1 : (setColZero t gc).cols = t.cols := setColZero_cols_mem hgc
        have c2 : (setColZero (setColZero t gc) sc).cols = t.cols :=
          (setColZero_cols_mem (c1 ▸ hsc)).trans c1
        rw [app_top10_setColZero (c2 ▸ hbc) hbt hbn (c2 ▸ htot),
            app_top10_setColZero (c1 ▸ hsc) hst hsn (c1 ▸ htot)]
        exact app_top10_setColZero hgc hgt hgn htot

/-- C3 amended: the total-medals KPI of src/app.py is recomputed from the
filtered table with deselected medal types contributing zero (it equals
the column sums of the medal-type-zeroed table), but the top-10 ranking
of src/app.py is computed from the stored total column and is entirely
unaffected by zeroing the medal columns, so changing the medal-type
selection does NOT change the totals used for ranking (see the
counterexample for the original claim). -/
theorem metrics_recomputed_amended
    (t : Table) (sel : List String) (gc sc bc : String)
    (hw : t.WF)
    (hg : get_medal_column t "gold" = some gc)
    (hs : get_medal_column t "silver" = some sc)
    (hb : get_medal_column t "bronze" = some bc)
    (hgc : gc ∈ t.cols) (hsc : sc ∈ t.cols) (hbc : bc ∈ t.cols)
    (h4 : sc ≠ gc) (h5 : bc ≠ gc) (h6 : bc ≠ sc)
    (hgt : gc ≠ "total") (hst : sc ≠ "total") (hbt : bc ≠ "total")
    (hgn : gc ≠ "noc") (hsn : sc ≠ "noc") (hbn : bc ≠ "noc")
    (htot : "total" ∈ t.cols) :
    totalMedalsKPI t sel
        = colSum (zeroUnselectedMedals t sel gc sc bc) gc
          + colSum (zeroUnselectedMedals t sel gc sc bc) sc
          + colSum (zeroUnselectedMedals t sel gc sc bc) bc ∧
    app_top10 (zeroUnselectedMedals t sel gc sc bc) = app_top10 t := by
  constructor
  · obtain ⟨e1, e2, e3⟩ := colSum_zeroUnselected t sel gc sc bc hw hgc hsc hbc h4 h5 h6
    rw [e1, e2, e3]
    unfold totalMedalsKPI
    rw [hg, hs, hb]
  · exact app_top10_zeroUnselected t sel gc sc bc hgc hsc hbc hgt hst hbt hgn hsn hbn htot

/-- Witness for C3 amended at the stored-total example table with Silver
deselected. -/
theorem metrics_recomputed_amended_witness :
    totalMedalsKPI exampleMedalsTotal ["Gold", "Bronze"]
      = colSum (zeroUnselectedMedals exampleMedalsTotal ["Gold", "Bronze"]
          "Gold" "Silver" "Bronze") "Gold"
        + colSum (zeroUnselectedMedals exampleMedalsTotal ["Gold", "Bronze"]
            "Gold" "Silver" "Bronze") "Silver"
        + colSum (zeroUnselectedMedals exampleMedalsTotal ["Gold", "Bronze"]
            "Gold" "Silver" "Bronze") "Bronze" :=
  (metrics_recomputed_amended exampleMedalsTotal ["Gold", "Bronze"] "Gold" "Silver" "Bronze"
    (by decide) (by decide) (by decide) (by decide) (by decide) (by decide) (by decide)
    (by decide) (by decide) (by decide) (by decide) (by decide) (by decide) (by decide)
    (by decide) (by decide) (by decide)).1

/-- C3 counterexample: with Silver deselected, the app.py top-10 shows
USA with total 18 (the stored pre-zeroing total), while the value
recomputed from the medal-type-zeroed table is 13 — the displayed
ranking total does not equal the zeroed recomputation the claim
requires. -/
theorem ranking_ignores_zeroed_recompute_counterexample :
    lookupCell (app_top10 exampleMedalsTotal) "noc" (Value.str "USA") "total" = Value.int 18 ∧
    lookupCell (reAgg exampleMedalsTotal ["Gold", "Bronze"] "Gold" "Silver" "Bronze" "noc") "noc"
      (Value.str "USA") "total" = Value.int 13 ∧
    Value.int 18 ≠ Value.int 13 := by
  refine ⟨by decide, by decide, by decide⟩
